import Mathlib

/-!
# Fantasy roster optimizer — verification development

Shallow embedding of `src/fantasy_roster_optimizer.py`.

Conventions of the embedding:

* `Player` keeps the three fields the solver reads: `id`, `positions`
  (the eligible-position *set*, represented as the list of its elements in
  iteration order — a Python `set` holds no duplicates, and its iteration
  order is unspecified), and `fpts`.  Python floats are modelled as exact
  rationals (`ℚ`).
* A Python dict `positions_needed` / `remaining` is an association list
  `Req` with the dict's key order; `getD` is `d.get(k, 0)`, `decr` is
  `d[k] -= 1` (the solver only decrements keys it has just read as
  positive, so keys are never added).
* `backtrack` is the inner recursion of `_backtrack_optimize`, with the
  mutable `best_solution` / `best_score` pair threaded as an explicit
  accumulator and the position index replaced by the remaining suffix of
  the player list (the index is only ever used relative to that suffix).
* `optimizedGreedy` is `_optimized_greedy` with both passes made explicit;
  the Python truthiness test `if best_pos:` (false for `None` and `""`)
  is reproduced literally.
-/

namespace Roster

structure Player where
  id : String
  positions : List String
  fpts : ℚ
deriving DecidableEq, Repr

/-- Association list for a Python `Dict[str, int]`, in key order. -/
abbrev Req := List (String × ℕ)

/-- One (player, assigned position) list, as built by the solver. -/
abbrev Asg := List (Player × String)

/-- The threaded `(best_solution, best_score)` accumulator. -/
abbrev Best := Asg × ℚ

/-- `d.get(c, 0)` on an association list. -/
def getD : Req → String → ℕ
  | [], _ => 0
  | kv :: r, c => if kv.1 = c then kv.2 else getD r c

/-- `remaining[c] -= 1` (the solver only decrements existing keys). -/
def decr (r : Req) (c : String) : Req :=
  r.map (fun kv => if kv.1 = c then (kv.1, kv.2 - 1) else kv)

/-- `sum(d.values())`. -/
def sumVals (r : Req) : ℕ := (r.map Prod.snd).sum

/-- `all(count == 0 for count in remaining.values())`. -/
def allZero (r : Req) : Bool := r.all (fun kv => kv.2 == 0)

/-- Number of entries of an assignment placed in position `c`
(works for plain assignments and for the index-tagged ones below). -/
def catCount {α : Type} (a : List (α × String)) (c : String) : ℕ :=
  a.countP (fun x => decide (x.2 = c))

/-- `sum(p.fpts for p, _ in selected)`. -/
def totalFpts (a : Asg) : ℚ := (a.map (fun pc => pc.1.fpts)).sum

/-- `sum(p.fpts for p in ...)`. -/
def posSum (l : List Player) : ℚ := (l.map Player.fpts).sum

/-- Insert a label into an ascending list of labels. -/
def insStr (c : String) : List String → List String
  | [] => [c]
  | d :: l => if d ≤ c then d :: insStr c l else c :: d :: l

/-- `sorted(player.positions)`: the eligible-position set listed in
ascending label order. -/
def sortedCats (ps : List String) : List String := ps.foldr insStr []

/-- One iteration of `for pos in sorted(player.positions): ...` inside
`backtrack`: fold the per-position branches over the accumulator. -/
def tryCats (f : String → Best → Best) : List String → Best → Best
  | [], b => b
  | c :: cs, b => tryCats f cs (f c b)

/-- The recursive `backtrack` of `_backtrack_optimize`.  `T` is
`total_slots`; the first list argument is the suffix
`players[player_idx:]`. -/
def backtrack (T : ℕ) : List Player → Asg → Req → ℚ → Best → Best
  | [], cur, rem, score, best =>
    if allZero rem then (if best.2 < score then (cur, score) else best) else best
  | p :: rest, cur, rem, score, best =>
    if 0 < T - cur.length ∧ score + posSum ((p :: rest).take (T - cur.length)) ≤ best.2 then
      best
    else if allZero rem then (if best.2 < score then (cur, score) else best)
    else
      backtrack T rest cur rem score
        (tryCats
          (fun c b =>
            if 0 < getD rem c then
              backtrack T rest (cur ++ [(p, c)]) (decr rem c) (score + p.fpts) b
            else b)
          (sortedCats p.positions) best)

/-- The full backtracking search of `_backtrack_optimize` before its
fallback test: initial state `(0, [], positions_needed, 0.0)`, initial
best `([], -1.0)`. -/
def btSearch (players : List Player) (req : Req) : Best :=
  backtrack (sumVals req) players [] req 0 ([], -1)

/-- State of `_optimized_greedy`: `selected`, `used`, `remaining`. -/
structure GState where
  sel : Asg
  used : List String
  rem : Req
deriving Repr

/-- The inner `for pos in player.positions` loop of the greedy first
pass: carry the current `(best_pos, best_priority)` (with `None`
standing for the initial `float('inf')`). -/
def pickLoop (rem : Req) : List String → Option (String × ℕ) → Option (String × ℕ)
  | [], acc => acc
  | c :: cs, acc =>
    if 0 < getD rem c then
      match acc with
      | none => pickLoop rem cs (some (c, getD rem c))
      | some bv =>
        if getD rem c < bv.2 then pickLoop rem cs (some (c, getD rem c))
        else pickLoop rem cs acc
    else pickLoop rem cs acc

/-- Position chosen by the greedy first pass for one player. -/
def pickPos (rem : Req) (ps : List String) : Option (String × ℕ) :=
  pickLoop rem ps none

/-- First pass of `_optimized_greedy`. -/
def greedyPass1 : List Player → GState → GState
  | [], s => s
  | p :: ps, s =>
    if p.id ∈ s.used then greedyPass1 ps s
    else
      match pickPos s.rem p.positions with
      | some cv =>
        if cv.1 = "" then greedyPass1 ps s
        else greedyPass1 ps ⟨s.sel ++ [(p, cv.1)], s.used ++ [p.id], decr s.rem cv.1⟩
      | none => greedyPass1 ps s

/-- Second ("fill remaining positions") pass of `_optimized_greedy`:
first eligible position with capacity, `break` after assigning. -/
def greedyPass2 : List Player → GState → GState
  | [], s => s
  | p :: ps, s =>
    if p.id ∈ s.used then greedyPass2 ps s
    else
      match p.positions.find? (fun c => decide (0 < getD s.rem c)) with
      | some c => greedyPass2 ps ⟨s.sel ++ [(p, c)], s.used ++ [p.id], decr s.rem c⟩
      | none => greedyPass2 ps s

/-- `_optimized_greedy`. -/
def optimizedGreedy (players : List Player) (req : Req) : Best :=
  let s1 := greedyPass1 players ⟨[], [], req⟩
  let s2 := if 0 < sumVals s1.rem then greedyPass2 players s1 else s1
  (s2.sel, totalFpts s2.sel)

/-- `_backtrack_optimize`: run the search, fall back to the greedy
solver when `best_solution` is still the empty list. -/
def backtrackOptimize (players : List Player) (req : Req) : Best :=
  if (btSearch players req).1 = [] then optimizedGreedy players req
  else btSearch players req

/-- Stable insertion into a value-descending player list (a tie goes to
the right of existing entries, as in Python's stable `sorted`). -/
def insDesc (p : Player) : List Player → List Player
  | [] => [p]
  | q :: l => if p.fpts ≤ q.fpts then q :: insDesc p l else p :: q :: l

/-- `sorted(team_players, key=lambda p: p.fpts, reverse=True)`. -/
def sortByFpts (l : List Player) : List Player := l.foldr insDesc []

/-- The hard-coded requirement of `optimize_roster`. -/
def defaultReq : Req := [("C", 3), ("RW", 3), ("LW", 3), ("D", 4), ("G", 3)]

/-- `optimize_roster`: sort by FPts descending, then run the exact
solver with the hard-coded requirement. -/
def optimizeRoster (teamPlayers : List Player) : Best :=
  backtrackOptimize (sortByFpts teamPlayers) defaultReq

/-- The player list is sorted by value descending. -/
def SortedDesc (l : List Player) : Prop :=
  l.Pairwise (fun a b => b.fpts ≤ a.fpts)

instance (l : List Player) : Decidable (SortedDesc l) := by
  unfold SortedDesc
  infer_instance

/-- A complete assignment: for every requirement entry the assigned
count equals the required count, and no entry is assigned outside the
requirement's categories. -/
def CompleteAsg (req : Req) (a : Asg) : Prop :=
  (∀ kv ∈ req, catCount a kv.1 = kv.2) ∧ ∀ pc ∈ a, pc.2 ∈ req.map Prod.fst

instance (req : Req) (a : Asg) : Decidable (CompleteAsg req a) := by
  unfold CompleteAsg; infer_instance

/-- A feasible complete assignment of (a sub-multiset of) the given
candidates: the assigned players are drawn from the list, every player
is placed on one of its eligible positions, and the per-category counts
meet the requirement exactly. -/
def FeasibleComplete (players : List Player) (req : Req) (a : Asg) : Prop :=
  List.Subperm (a.map Prod.fst) players ∧ (∀ pc ∈ a, pc.2 ∈ pc.1.positions) ∧ CompleteAsg req a

instance (players : List Player) (req : Req) (a : Asg) :
    Decidable (FeasibleComplete players req a) := by
  unfold FeasibleComplete
  infer_instance

/-- Semantic description of a recorded best: either still the initial
`([], -1.0)`, or a feasible complete assignment together with its value. -/
def GoodBest (players : List Player) (req : Req) (b : Best) : Prop :=
  b = ([], -1) ∨
    (List.Subperm (b.1.map Prod.fst) players ∧ (∀ pc ∈ b.1, pc.2 ∈ pc.1.positions) ∧
      (∀ c, catCount b.1 c = getD req c) ∧ b.2 = totalFpts b.1)

/-- A candidate tagged with its index in the master candidate list;
assignments over tokens let the exchange argument for greedy dominance
treat equal-valued duplicate entries as distinct. -/
abbrev Tok := ℕ × Player

/-- Forget the index tags of a token-level assignment. -/
def untag (l : List (Tok × String)) : Asg := l.map (fun q => (q.1.2, q.2))

/-- Number of entries of `A` whose token also occurs in `B` but with a
different category — the induction measure of the exchange argument. -/
def disagree (A B : List (Tok × String)) : ℕ :=
  A.countP (fun q => decide (∃ q' ∈ B, q'.1 = q.1 ∧ q'.2 ≠ q.2))

/-- Invariant of the greedy solver's state. -/
def GInv (players : List Player) (req : Req) (s : GState) : Prop :=
  (∀ pc ∈ s.sel, pc.1 ∈ players) ∧
  (∀ pc ∈ s.sel, pc.2 ∈ pc.1.positions) ∧
  (s.sel.map (fun pc => pc.1.id)).Nodup ∧
  (∀ pc ∈ s.sel, pc.1.id ∈ s.used) ∧
  (∀ c, catCount s.sel c + getD s.rem c = getD req c)

/-! ## Basic lemmas about the dictionary and counting primitives -/

theorem getD_pos_mem {r : Req} {c : String} (h : 0 < getD r c) : c ∈ r.map Prod.fst := by
  induction r with
  | nil => simp [getD] at h
  | cons kv t ih =>
    by_cases hk : kv.1 = c
    · simp [hk]
    · simp only [getD, if_neg hk] at h
      simpa using Or.inr (ih h)

theorem getD_of_mem_nodup {r : Req} {kv : String × ℕ} (hnd : (r.map Prod.fst).Nodup)
    (h : kv ∈ r) : getD r kv.1 = kv.2 := by
  induction r with
  | nil => simp at h
  | cons hd t ih =>
    simp only [List.map_cons, List.nodup_cons] at hnd
    rcases List.mem_cons.mp h with h | h
    · subst h; simp [getD]
    · have hne : hd.1 ≠ kv.1 := by
        intro he
        exact hnd.1 (he ▸ List.mem_map_of_mem Prod.fst h)
      simp only [getD, if_neg hne]
      exact ih hnd.2 h

theorem decr_nil (c : String) : decr [] c = [] := rfl

theorem decr_cons (kv : String × ℕ) (t : Req) (c : String) :
    decr (kv :: t) c = (if kv.1 = c then (kv.1, kv.2 - 1) else kv) :: decr t c := rfl

theorem decr_map_fst (r : Req) (c : String) : (decr r c).map Prod.fst = r.map Prod.fst := by
  induction r with
  | nil => rfl
  | cons kv t ih =>
    rw [decr_cons, List.map_cons, List.map_cons, ih]
    by_cases h : kv.1 = c <;> simp [h]

theorem getD_decr_self (r : Req) (c : String) : getD (decr r c) c = getD r c - 1 := by
  induction r with
  | nil => simp [decr_nil, getD]
  | cons kv t ih =>
    rw [decr_cons]
    by_cases h : kv.1 = c
    · simp [getD, h]
    · simp [getD, h, ih]

theorem getD_decr_ne (r : Req) {c c' : String} (h : c' ≠ c) :
    getD (decr r c) c' = getD r c' := by
  induction r with
  | nil => simp [decr_nil]
  | cons kv t ih =>
    rw [decr_cons]
    by_cases hk : kv.1 = c
    · have hne : kv.1 ≠ c' := fun he => h (he ▸ hk)
      rw [if_pos hk]
      show (if kv.1 = c' then kv.2 - 1 else getD (decr t c) c') = getD (kv :: t) c'
      simp only [getD, if_neg hne]
      exact ih
    · rw [if_neg hk]
      by_cases hk' : kv.1 = c'
      · simp [getD, hk']
      · simp only [getD, if_neg hk']
        exact ih

theorem decr_eq_of_not_mem {r : Req} {c : String} (h : c ∉ r.map Prod.fst) :
    decr r c = r := by
  induction r with
  | nil => rfl
  | cons kv t ih =>
    simp only [List.map_cons, List.mem_cons, not_or] at h
    have hne : kv.1 ≠ c := fun he => h.1 he.symm
    rw [decr_cons, if_neg hne, ih h.2]

theorem sumVals_decr {r : Req} {c : String} (hnd : (r.map Prod.fst).Nodup)
    (h : 0 < getD r c) : sumVals (decr r c) + 1 = sumVals r := by
  induction r with
  | nil => simp [getD] at h
  | cons kv t ih =>
    simp only [List.map_cons, List.nodup_cons] at hnd
    by_cases hk : kv.1 = c
    · have hnot : c ∉ t.map Prod.fst := hk ▸ hnd.1
      have h2 : 0 < kv.2 := by simpa [getD, hk] using h
      rw [decr_cons, if_pos hk, decr_eq_of_not_mem hnot]
      simp [sumVals]
      omega
    · have h' : 0 < getD t c := by simpa [getD, hk] using h
      have := ih hnd.2 h'
      rw [decr_cons, if_neg hk]
      simp only [sumVals, List.map_cons, List.sum_cons] at this ⊢
      omega

theorem allZero_getD {r : Req} (h : allZero r = true) (c : String) : getD r c = 0 := by
  induction r with
  | nil => simp [getD]
  | cons kv t ih =>
    simp only [allZero, List.all_cons, Bool.and_eq_true, beq_iff_eq] at h
    by_cases hk : kv.1 = c
    · simp [getD, hk, h.1]
    · simp only [getD, if_neg hk]
      exact ih (by simp [allZero, h.2])

theorem allZero_of_getD {r : Req} (hnd : (r.map Prod.fst).Nodup)
    (h : ∀ c, getD r c = 0) : allZero r = true := by
  simp only [allZero, List.all_eq_true, beq_iff_eq]
  intro kv hkv
  have := getD_of_mem_nodup hnd hkv
  rw [← this]; exact h kv.1

theorem catCount_nil (c : String) : catCount ([] : Asg) c = 0 := rfl

theorem catCount_cons {α : Type} (x : α × String) (a : List (α × String)) (c : String) :
    catCount (x :: a) c = catCount a c + (if x.2 = c then 1 else 0) := by
  simp [catCount, List.countP_cons]

theorem catCount_append {α : Type} (a b : List (α × String)) (c : String) :
    catCount (a ++ b) c = catCount a c + catCount b c := by
  simp [catCount, List.countP_append]

theorem catCount_pos {α : Type} {a : List (α × String)} {x : α × String} (hx : x ∈ a) :
    0 < catCount a x.2 := by
  rw [catCount, List.countP_pos_iff]
  exact ⟨x, hx, by simp⟩

theorem eq_nil_of_catCount_zero {α : Type} {a : List (α × String)}
    (h : ∀ c, catCount a c = 0) : a = [] := by
  cases a with
  | nil => rfl
  | cons x t =>
    have := catCount_pos (List.mem_cons_self x t)
    rw [h x.2] at this
    exact absurd this (lt_irrefl 0)

theorem catCount_perm {α : Type} {a b : List (α × String)} (h : a.Perm b) (c : String) :
    catCount a c = catCount b c := h.countP_eq _

theorem totalFpts_nil : totalFpts [] = 0 := rfl

theorem totalFpts_cons (x : Player × String) (a : Asg) :
    totalFpts (x :: a) = x.1.fpts + totalFpts a := by
  simp [totalFpts]

theorem totalFpts_append (a b : Asg) :
    totalFpts (a ++ b) = totalFpts a + totalFpts b := by
  simp [totalFpts]

theorem totalFpts_perm {a b : Asg} (h : a.Perm b) : totalFpts a = totalFpts b :=
  (h.map _).sum_eq

theorem totalFpts_eq_posSum (a : Asg) : totalFpts a = posSum (a.map Prod.fst) := by
  simp only [totalFpts, posSum, List.map_map]
  rfl

theorem posSum_nonneg {l : List Player} (h : ∀ p ∈ l, 0 ≤ p.fpts) : 0 ≤ posSum l := by
  induction l with
  | nil => simp [posSum]
  | cons p t ih =>
    simp only [posSum, List.map_cons, List.sum_cons]
    have := h p (List.mem_cons_self p t)
    have ht := ih (fun q hq => h q (List.mem_cons_of_mem p hq))
    simp only [posSum] at ht
    linarith

theorem mem_insStr {c d : String} {l : List String} :
    c ∈ insStr d l ↔ c = d ∨ c ∈ l := by
  induction l with
  | nil => simp [insStr]
  | cons e t ih =>
    rw [show insStr d (e :: t) = if e ≤ d then e :: insStr d t else d :: e :: t from rfl]
    by_cases h : e ≤ d
    · rw [if_pos h]
      simp only [List.mem_cons, ih]
      tauto
    · rw [if_neg h]
      simp

theorem mem_sortedCats {c : String} {ps : List String} :
    c ∈ sortedCats ps ↔ c ∈ ps := by
  induction ps with
  | nil => simp [sortedCats]
  | cons d t ih =>
    simp only [sortedCats, List.foldr_cons, mem_insStr, List.mem_cons]
    rw [sortedCats] at ih
    tauto

/-! ## Counting a complete assignment's length -/

theorem sum_map_addf {α : Type} (l : List α) (f g : α → ℕ) :
    (l.map (fun x => f x + g x)).sum = (l.map f).sum + (l.map g).sum := by
  induction l with
  | nil => rfl
  | cons x t ih =>
    simp only [List.map_cons, List.sum_cons, ih]
    omega

theorem sum_indicator_not_mem {c : String} {ks : List String} (h : c ∉ ks) :
    (ks.map (fun k => if c = k then 1 else 0)).sum = 0 := by
  induction ks with
  | nil => rfl
  | cons k t ih =>
    simp only [List.mem_cons, not_or] at h
    simp only [List.map_cons, List.sum_cons, if_neg h.1, ih h.2]

theorem sum_indicator_nodup {c : String} {ks : List String} (hnd : ks.Nodup) (h : c ∈ ks) :
    (ks.map (fun k => if c = k then 1 else 0)).sum = 1 := by
  induction ks with
  | nil => cases h
  | cons k t ih =>
    simp only [List.nodup_cons] at hnd
    rcases List.mem_cons.mp h with he | hm
    · subst he
      simp [sum_indicator_not_mem hnd.1]
    · have hne : c ≠ k := fun he => hnd.1 (he ▸ hm)
      simp only [List.map_cons, List.sum_cons, if_neg hne, ih hnd.2 hm]

theorem sum_catCount {α : Type} {ks : List String} (hnd : ks.Nodup) :
    ∀ {a : List (α × String)}, (∀ x ∈ a, x.2 ∈ ks) →
      (ks.map (catCount a)).sum = a.length := by
  intro a
  induction a with
  | nil =>
    intro _
    have : ks.map (catCount ([] : List (α × String))) = ks.map (fun _ => 0) := by
      apply List.map_congr_left
      intro k _
      rfl
    simp [this]
  | cons x t ih =>
    intro hmem
    have h1 : ks.map (catCount (x :: t)) =
        ks.map (fun k => catCount t k + (if x.2 = k then 1 else 0)) := by
      apply List.map_congr_left
      intro k _
      exact catCount_cons x t k
    rw [h1, sum_map_addf, ih (fun y hy => hmem y (List.mem_cons_of_mem x hy)),
      sum_indicator_nodup hnd (hmem x (List.mem_cons_self x t))]
    simp

theorem sum_getD_eq_sumVals {r : Req} (hnd : (r.map Prod.fst).Nodup) :
    ((r.map Prod.fst).map (getD r)).sum = sumVals r := by
  induction r with
  | nil => rfl
  | cons kv t ih =>
    simp only [List.map_cons, List.nodup_cons] at hnd
    have h1 : getD (kv :: t) kv.1 = kv.2 := by simp [getD]
    have h2 : (t.map Prod.fst).map (getD (kv :: t)) = (t.map Prod.fst).map (getD t) := by
      apply List.map_congr_left
      intro k hk
      have hne : kv.1 ≠ k := fun he => hnd.1 (he ▸ hk)
      simp [getD, hne]
    simp only [List.map_cons, List.sum_cons, h1, h2, ih hnd.2, sumVals]

theorem length_of_complete {α : Type} {a : List (α × String)} {r : Req}
    (hnd : (r.map Prod.fst).Nodup) (h : ∀ c, catCount a c = getD r c) :
    a.length = sumVals r := by
  have hmem : ∀ x ∈ a, x.2 ∈ r.map Prod.fst := by
    intro x hx
    have hp := catCount_pos hx
    rw [h x.2] at hp
    exact getD_pos_mem hp
  have h1 := sum_catCount hnd hmem
  have h2 : (r.map Prod.fst).map (catCount a) = (r.map Prod.fst).map (getD r) := by
    apply List.map_congr_left
    intro k _
    exact h k
  rw [h2, sum_getD_eq_sumVals hnd] at h1
  omega

/-! ## The pruning bound -/

theorem sortedDesc_cons {p : Player} {l : List Player} (h : SortedDesc (p :: l)) :
    SortedDesc l ∧ ∀ q ∈ l, q.fpts ≤ p.fpts := by
  rw [SortedDesc, List.pairwise_cons] at h
  exact ⟨h.2, h.1⟩

theorem posSum_append (a b : List Player) : posSum (a ++ b) = posSum a + posSum b := by
  simp [posSum]

/-- Sorted-descending lists dominate their sublists position by
position: a sublist of length `n` sums to at most the first `n`
entries. -/
theorem posSum_sublist_le {s l : List Player} (hs : List.Sublist s l) :
    SortedDesc l → posSum s ≤ posSum (l.take s.length) := by
  induction hs with
  | slnil =>
    intro _
    simp [posSum]
  | @cons s l2 a h ih =>
    intro hsort
    obtain ⟨hs2, hd⟩ := sortedDesc_cons hsort
    refine le_trans (ih hs2) ?_
    cases hn : s.length with
    | zero => simp
    | succ m =>
      have hlen : m < l2.length := by
        have := h.length_le
        omega
      have ht2 : l2.take (m + 1) = l2.take m ++ [l2.get ⟨m, hlen⟩] := by
        rw [List.take_succ]
        congr 1
        rw [List.getElem?_eq_getElem hlen]
        rfl
      have hmem : l2.get ⟨m, hlen⟩ ∈ l2 := List.get_mem l2 m hlen
      have hfle : (l2.get ⟨m, hlen⟩).fpts ≤ a.fpts := hd _ hmem
      have hone : posSum [l2.get ⟨m, hlen⟩] = (l2.get ⟨m, hlen⟩).fpts := by simp [posSum]
      have hac : posSum (a :: l2.take m) = a.fpts + posSum (l2.take m) := by simp [posSum]
      rw [List.take_succ_cons, ht2, posSum_append, hone, hac]
      linarith
  | @cons₂ s l2 a h ih =>
    intro hsort
    obtain ⟨hs2, _⟩ := sortedDesc_cons hsort
    have h1 : posSum (a :: s) = a.fpts + posSum s := by simp [posSum]
    have h2 : posSum ((a :: l2).take (s.length + 1)) = a.fpts + posSum (l2.take s.length) := by
      rw [List.take_succ_cons]
      simp [posSum]
    simp only [List.length_cons, h1, h2]
    have := ih hs2
    linarith

/-! ## Folding the per-position branches -/

theorem tryCats_mono {f : String → Best → Best} (hf : ∀ c b, b.2 ≤ (f c b).2) :
    ∀ (cs : List String) (b : Best), b.2 ≤ (tryCats f cs b).2 := by
  intro cs
  induction cs with
  | nil =>
    intro b
    simp [tryCats]
  | cons c cs ih =>
    intro b
    exact le_trans (hf c b) (ih (f c b))

theorem tryCats_preserve {f : String → Best → Best} {P : Best → Prop} :
    ∀ {cs : List String}, (∀ c ∈ cs, ∀ b, P b → P (f c b)) →
      ∀ b, P b → P (tryCats f cs b) := by
  intro cs
  induction cs with
  | nil =>
    intro _ b hb
    exact hb
  | cons c cs ih =>
    intro hf b hb
    exact ih (fun c' hc' b' => hf c' (List.mem_cons_of_mem c hc') b')
      (f c b) (hf c (List.mem_cons_self c cs) b hb)

theorem tryCats_reach {f : String → Best → Best} {v : ℚ} {c : String}
    (hmono : ∀ c' b, b.2 ≤ (f c' b).2) (hv : ∀ b, v ≤ (f c b).2) :
    ∀ {cs : List String}, c ∈ cs → ∀ b, v ≤ (tryCats f cs b).2 := by
  intro cs
  induction cs with
  | nil =>
    intro hc
    cases hc
  | cons d cs ih =>
    intro hc b
    rcases List.mem_cons.mp hc with he | hm
    · subst he
      exact le_trans (hv b) (tryCats_mono hmono cs (f c b))
    · exact ih hm (f d b)

/-! ## Monotonicity of the search accumulator -/

theorem backtrack_le (T : ℕ) (rest : List Player) :
    ∀ (cur : Asg) (rem : Req) (score : ℚ) (best : Best),
      best.2 ≤ (backtrack T rest cur rem score best).2 := by
  induction rest with
  | nil =>
    intro cur rem score best
    simp only [backtrack]
    split
    · split
      · next h => exact le_of_lt h
      · exact le_refl _
    · exact le_refl _
  | cons p rest ih =>
    intro cur rem score best
    simp only [backtrack]
    split
    · exact le_refl _
    · split
      · split
        · next h => exact le_of_lt h
        · exact le_refl _
      · refine le_trans ?_ (ih cur rem score _)
        refine tryCats_mono (fun c b => ?_) _ best
        dsimp only
        split
        · exact ih _ _ _ b
        · exact le_refl _

/-! ## Soundness: every recorded best is a feasible complete assignment -/

theorem backtrack_goodBest (players : List Player) (req : Req) (T : ℕ) :
    ∀ (rest : List Player) (cur : Asg) (rem : Req) (score : ℚ) (best : Best)
      (pre : List Player),
      players = pre ++ rest →
      List.Sublist (cur.map Prod.fst) pre →
      (∀ pc ∈ cur, pc.2 ∈ pc.1.positions) →
      (∀ c, catCount cur c + getD rem c = getD req c) →
      score = totalFpts cur →
      GoodBest players req best →
      GoodBest players req (backtrack T rest cur rem score best) := by
  intro rest
  induction rest with
  | nil =>
    intro cur rem score best pre hsplit hsub helig hcnt hscore hgood
    simp only [backtrack]
    split
    · next hz =>
      split
      · right
        refine ⟨?_, helig, ?_, hscore⟩
        · have h1 : List.Sublist (cur.map Prod.fst) players := by
            rw [hsplit, List.append_nil]
            exact hsub
          exact h1.subperm
        · intro c
          show catCount cur c = getD req c
          have h2 := hcnt c
          rw [allZero_getD hz c] at h2
          omega
      · exact hgood
    · exact hgood
  | cons p rest ih =>
    intro cur rem score best pre hsplit hsub helig hcnt hscore hgood
    simp only [backtrack]
    split
    · exact hgood
    · split
      · next hz =>
        split
        · right
          refine ⟨?_, helig, ?_, hscore⟩
          · have h1 : List.Sublist (cur.map Prod.fst) (pre ++ p :: rest) :=
              hsub.trans (List.sublist_append_left pre (p :: rest))
            rw [hsplit]
            exact h1.subperm
          · intro c
            show catCount cur c = getD req c
            have h2 := hcnt c
            rw [allZero_getD hz c] at h2
            omega
        · exact hgood
      · apply ih cur rem score _ (pre ++ [p])
        · rw [hsplit]
          simp
        · exact hsub.trans (List.sublist_append_left pre [p])
        · exact helig
        · exact hcnt
        · exact hscore
        · refine tryCats_preserve (fun c hc b hb => ?_) best hgood
          dsimp only
          split
          · next hpos =>
            apply ih (cur ++ [(p, c)]) (decr rem c) (score + p.fpts) b (pre ++ [p])
            · rw [hsplit]
              simp
            · rw [List.map_append]
              exact hsub.append (by simp)
            · intro pc hpc
              rcases List.mem_append.mp hpc with h | h
              · exact helig pc h
              · simp only [List.mem_singleton] at h
                subst h
                exact mem_sortedCats.mp hc
            · intro c'
              rw [catCount_append]
              by_cases hcc : c' = c
              · subst hcc
                rw [getD_decr_self]
                have h3 : catCount [(p, c')] c' = 1 := by simp [catCount]
                rw [h3]
                have h4 := hcnt c'
                omega
              · rw [getD_decr_ne _ hcc]
                have h3 : catCount [(p, c)] c' = 0 := by
                  simp [catCount]
                  exact fun he => hcc he.symm
                rw [h3]
                have h4 := hcnt c'
                omega
            · rw [totalFpts_append, ← hscore]
              have h3 : totalFpts [(p, c)] = p.fpts := by simp [totalFpts]
              rw [h3]
            · exact hb
          · exact hb

theorem cons_sublist_cons_cases {α : Type} {a b : α} {l1 l2 : List α}
    (h : List.Sublist (a :: l1) (b :: l2)) :
    List.Sublist (a :: l1) l2 ∨ (a = b ∧ List.Sublist l1 l2) := by
  cases h with
  | cons _ h => exact Or.inl h
  | cons₂ _ h => exact Or.inr ⟨rfl, h⟩

/-- Completeness of the pruned search: the returned best value dominates
`score` plus the value of every complete extension of the current state
that draws its players, in order, from the unprocessed suffix.  This is
the formal content of the admissible-bound argument: it needs the
suffix sorted by value descending. -/
theorem backtrack_ge_ext (T : ℕ) :
    ∀ (rest : List Player) (cur : Asg) (rem : Req) (score : ℚ) (best : Best) (tail : Asg),
      SortedDesc rest →
      (rem.map Prod.fst).Nodup →
      cur.length + sumVals rem = T →
      List.Sublist (tail.map Prod.fst) rest →
      (∀ pc ∈ tail, pc.2 ∈ pc.1.positions) →
      (∀ c, catCount tail c = getD rem c) →
      score + totalFpts tail ≤ (backtrack T rest cur rem score best).2 := by
  intro rest
  induction rest with
  | nil =>
    intro cur rem score best tail _ hnd _ htsub _ hcnt
    have h0 : tail.map Prod.fst = [] := List.sublist_nil.mp htsub
    have htail : tail = [] := List.map_eq_nil_iff.mp h0
    subst htail
    have hz : allZero rem = true :=
      allZero_of_getD hnd (fun c => ((hcnt c).symm.trans (catCount_nil c)))
    rw [totalFpts_nil, add_zero]
    simp only [backtrack, hz, if_true]
    split
    · exact le_refl _
    · next h => exact le_of_not_lt h
  | cons p rest ih =>
    intro cur rem score best tail hsort hnd hIV htsub helig hcnt
    obtain ⟨hs2, _⟩ := sortedDesc_cons hsort
    simp only [backtrack]
    split
    · next hprune =>
      obtain ⟨hpos, hble⟩ := hprune
      have hlen : tail.length = sumVals rem := length_of_complete hnd hcnt
      have h1 : totalFpts tail ≤ posSum ((p :: rest).take (T - cur.length)) := by
        rw [totalFpts_eq_posSum]
        have h2 := posSum_sublist_le htsub hsort
        rw [List.length_map, hlen] at h2
        have h3 : sumVals rem = T - cur.length := by omega
        rw [h3] at h2
        exact h2
      linarith
    · split
      · next hz =>
        have htail : tail = [] := eq_nil_of_catCount_zero (fun c => by
          rw [hcnt c, allZero_getD hz c])
        subst htail
        rw [totalFpts_nil, add_zero]
        split
        · exact le_refl _
        · next h => exact le_of_not_lt h
      · next hz =>
        cases htail : tail with
        | nil =>
          exfalso
          apply hz
          apply allZero_of_getD hnd
          intro c
          have h1 := hcnt c
          rw [htail] at h1
          exact (h1.symm.trans (catCount_nil c))
        | cons qc tail' =>
          subst htail
          rw [List.map_cons] at htsub
          rcases cons_sublist_cons_cases htsub with hskip | ⟨hqp, htl⟩
          · exact ih cur rem score _ (qc :: tail') hs2 hnd hIV
              (by rw [List.map_cons]; exact hskip) helig hcnt
          · have hgq : 0 < getD rem qc.2 := by
              rw [← hcnt qc.2]
              exact catCount_pos (List.mem_cons_self qc tail')
            have hndd : ((decr rem qc.2).map Prod.fst).Nodup := by
              rw [decr_map_fst]
              exact hnd
            have hIVd : (cur ++ [(p, qc.2)]).length + sumVals (decr rem qc.2) = T := by
              have := sumVals_decr hnd hgq
              simp only [List.length_append, List.length_singleton]
              omega
            have heligt : ∀ pc ∈ tail', pc.2 ∈ pc.1.positions :=
              fun pc hpc => helig pc (List.mem_cons_of_mem qc hpc)
            have hcntd : ∀ c', catCount tail' c' = getD (decr rem qc.2) c' := by
              intro c'
              by_cases hcc : c' = qc.2
              · subst hcc
                rw [getD_decr_self]
                have h1 := hcnt qc.2
                rw [catCount_cons, if_pos rfl] at h1
                omega
              · rw [getD_decr_ne _ hcc]
                have h1 := hcnt c'
                rw [catCount_cons, if_neg (fun he => hcc he.symm)] at h1
                omega
            have hbranch : ∀ b : Best,
                score + totalFpts (qc :: tail') ≤
                  (if 0 < getD rem qc.2 then
                    backtrack T rest (cur ++ [(p, qc.2)]) (decr rem qc.2) (score + p.fpts) b
                  else b).2 := by
              intro b
              rw [if_pos hgq]
              have h1 := ih (cur ++ [(p, qc.2)]) (decr rem qc.2) (score + p.fpts) b tail'
                hs2 hndd hIVd htl heligt hcntd
              rw [totalFpts_cons]
              have h2 : qc.1.fpts = p.fpts := by rw [hqp]
              linarith
            have hmono : ∀ (c' : String) (b : Best),
                b.2 ≤ ((fun c b =>
                  if 0 < getD rem c then
                    backtrack T rest (cur ++ [(p, c)]) (decr rem c) (score + p.fpts) b
                  else b) c' b).2 := by
              intro c' b
              dsimp only
              split
              · exact backtrack_le T rest _ _ _ b
              · exact le_refl _
            have hc : qc.2 ∈ sortedCats p.positions := by
              rw [mem_sortedCats, ← hqp]
              exact helig qc (List.mem_cons_self qc tail')
            have hreach := tryCats_reach hmono hbranch hc best
            exact le_trans hreach (backtrack_le T rest cur rem score _)

/-- With non-negative values, the search records at least one solution
whenever a complete extension of the current state exists: the initial
`best_score` is `-1.0`, every recorded score is non-negative, and the
bound can never prune below a non-negative target before something was
recorded. -/
theorem backtrack_found (T : ℕ) :
    ∀ (rest : List Player) (cur : Asg) (rem : Req) (score : ℚ) (best : Best) (tail : Asg),
      (∀ p ∈ rest, 0 ≤ p.fpts) → 0 ≤ score →
      (rem.map Prod.fst).Nodup →
      List.Sublist (tail.map Prod.fst) rest →
      (∀ pc ∈ tail, pc.2 ∈ pc.1.positions) →
      (∀ c, catCount tail c = getD rem c) →
      0 ≤ (backtrack T rest cur rem score best).2 := by
  intro rest
  induction rest with
  | nil =>
    intro cur rem score best tail _ hscore hnd htsub _ hcnt
    have h0 : tail.map Prod.fst = [] := List.sublist_nil.mp htsub
    have htail : tail = [] := List.map_eq_nil_iff.mp h0
    subst htail
    have hz : allZero rem = true :=
      allZero_of_getD hnd (fun c => ((hcnt c).symm.trans (catCount_nil c)))
    simp only [backtrack, hz, if_true]
    split
    · exact hscore
    · next h => exact le_trans hscore (le_of_not_lt h)
  | cons p rest ih =>
    intro cur rem score best tail hval hscore hnd htsub helig hcnt
    have hval2 : ∀ q ∈ rest, 0 ≤ q.fpts := fun q hq => hval q (List.mem_cons_of_mem p hq)
    simp only [backtrack]
    split
    · next hprune =>
      obtain ⟨_, hble⟩ := hprune
      have h1 : 0 ≤ posSum ((p :: rest).take (T - cur.length)) :=
        posSum_nonneg (fun q hq => hval q (List.mem_of_mem_take hq))
      linarith
    · split
      · split
        · exact hscore
        · next h => exact le_trans hscore (le_of_not_lt h)
      · next hz =>
        cases htail : tail with
        | nil =>
          exfalso
          apply hz
          apply allZero_of_getD hnd
          intro c
          have h1 := hcnt c
          rw [htail] at h1
          exact (h1.symm.trans (catCount_nil c))
        | cons qc tail' =>
          subst htail
          rw [List.map_cons] at htsub
          rcases cons_sublist_cons_cases htsub with hskip | ⟨hqp, htl⟩
          · exact ih cur rem score _ (qc :: tail') hval2 hscore hnd
              (by rw [List.map_cons]; exact hskip) helig hcnt
          · have hgq : 0 < getD rem qc.2 := by
              rw [← hcnt qc.2]
              exact catCount_pos (List.mem_cons_self qc tail')
            have hndd : ((decr rem qc.2).map Prod.fst).Nodup := by
              rw [decr_map_fst]
              exact hnd
            have heligt : ∀ pc ∈ tail', pc.2 ∈ pc.1.positions :=
              fun pc hpc => helig pc (List.mem_cons_of_mem qc hpc)
            have hcntd : ∀ c', catCount tail' c' = getD (decr rem qc.2) c' := by
              intro c'
              by_cases hcc : c' = qc.2
              · subst hcc
                rw [getD_decr_self]
                have h1 := hcnt qc.2
                rw [catCount_cons, if_pos rfl] at h1
                omega
              · rw [getD_decr_ne _ hcc]
                have h1 := hcnt c'
                rw [catCount_cons, if_neg (fun he => hcc he.symm)] at h1
                omega
            have hbranch : ∀ b : Best,
                (0 : ℚ) ≤
                  (if 0 < getD rem qc.2 then
                    backtrack T rest (cur ++ [(p, qc.2)]) (decr rem qc.2) (score + p.fpts) b
                  else b).2 := by
              intro b
              rw [if_pos hgq]
              have hp0 : (0 : ℚ) ≤ p.fpts := hval p (List.mem_cons_self p rest)
              exact ih (cur ++ [(p, qc.2)]) (decr rem qc.2) (score + p.fpts) b tail'
                hval2 (by linarith) hndd htl heligt hcntd
            have hmono : ∀ (c' : String) (b : Best),
                b.2 ≤ ((fun c b =>
                  if 0 < getD rem c then
                    backtrack T rest (cur ++ [(p, c)]) (decr rem c) (score + p.fpts) b
                  else b) c' b).2 := by
              intro c' b
              dsimp only
              split
              · exact backtrack_le T rest _ _ _ b
              · exact le_refl _
            have hc : qc.2 ∈ sortedCats p.positions := by
              rw [mem_sortedCats, ← hqp]
              exact helig qc (List.mem_cons_self qc tail')
            have hreach := tryCats_reach hmono hbranch hc best
            exact le_trans hreach (backtrack_le T rest cur rem score _)

theorem btSearch_goodBest (players : List Player) (req : Req) :
    GoodBest players req (btSearch players req) := by
  apply backtrack_goodBest players req (sumVals req) players [] req 0 ([], -1) []
  · rfl
  · simp
  · simp
  · intro c
    simp [catCount]
  · rfl
  · left
    rfl

/-! ## The greedy fallback: loop lemmas and state invariant -/

theorem pickLoop_nil (rem : Req) (acc : Option (String × ℕ)) :
    pickLoop rem [] acc = acc := rfl

theorem pickLoop_cons (rem : Req) (c : String) (cs : List String)
    (acc : Option (String × ℕ)) :
    pickLoop rem (c :: cs) acc =
      if 0 < getD rem c then
        (match acc with
         | none => pickLoop rem cs (some (c, getD rem c))
         | some bv =>
           if getD rem c < bv.2 then pickLoop rem cs (some (c, getD rem c))
           else pickLoop rem cs acc)
      else pickLoop rem cs acc := rfl

theorem pickLoop_some_cases {rem : Req} :
    ∀ (ps : List String) (acc : Option (String × ℕ)) (cv : String × ℕ),
      pickLoop rem ps acc = some cv →
      acc = some cv ∨ (cv.1 ∈ ps ∧ cv.2 = getD rem cv.1 ∧ 0 < getD rem cv.1) := by
  intro ps
  induction ps with
  | nil =>
    intro acc cv h
    exact Or.inl h
  | cons c cs ih =>
    intro acc cv h
    rw [pickLoop_cons] at h
    by_cases hg : 0 < getD rem c
    · rw [if_pos hg] at h
      cases acc with
      | none =>
        dsimp only at h
        rcases ih _ _ h with he | hm
        · right
          have : cv = (c, getD rem c) := Option.some_injective _ he.symm
          subst this
          exact ⟨List.mem_cons_self c cs, rfl, hg⟩
        · exact Or.inr ⟨List.mem_cons_of_mem c hm.1, hm.2⟩
      | some bv =>
        dsimp only at h
        by_cases hlt : getD rem c < bv.2
        · rw [if_pos hlt] at h
          rcases ih _ _ h with he | hm
          · right
            have : cv = (c, getD rem c) := Option.some_injective _ he.symm
            subst this
            exact ⟨List.mem_cons_self c cs, rfl, hg⟩
          · exact Or.inr ⟨List.mem_cons_of_mem c hm.1, hm.2⟩
        · rw [if_neg hlt] at h
          rcases ih _ _ h with he | hm
          · exact Or.inl he
          · exact Or.inr ⟨List.mem_cons_of_mem c hm.1, hm.2⟩
    · rw [if_neg hg] at h
      rcases ih _ _ h with he | hm
      · exact Or.inl he
      · exact Or.inr ⟨List.mem_cons_of_mem c hm.1, hm.2⟩

theorem pickPos_some {rem : Req} {ps : List String} {cv : String × ℕ}
    (h : pickPos rem ps = some cv) :
    cv.1 ∈ ps ∧ cv.2 = getD rem cv.1 ∧ 0 < getD rem cv.1 := by
  rcases pickLoop_some_cases ps none cv h with he | hm
  · cases he
  · exact hm

theorem pickLoop_min {rem : Req} :
    ∀ (ps : List String) (acc : Option (String × ℕ)) (cv : String × ℕ),
      pickLoop rem ps acc = some cv →
      (∀ c' ∈ ps, 0 < getD rem c' → cv.2 ≤ getD rem c') ∧
      (∀ bv, acc = some bv → cv.2 ≤ bv.2) := by
  intro ps
  induction ps with
  | nil =>
    intro acc cv h
    rw [pickLoop_nil] at h
    refine ⟨fun c' hc' _ => absurd hc' (List.not_mem_nil c'), ?_⟩
    intro bv hbv
    rw [h] at hbv
    obtain rfl : cv = bv := Option.some_injective _ hbv
    exact le_refl _
  | cons c cs ih =>
    intro acc cv h
    rw [pickLoop_cons] at h
    by_cases hg : 0 < getD rem c
    · rw [if_pos hg] at h
      cases acc with
      | none =>
        dsimp only at h
        obtain ⟨hmin, hacc⟩ := ih _ _ h
        have hle : cv.2 ≤ getD rem c := hacc (c, getD rem c) rfl
        refine ⟨?_, ?_⟩
        · intro c' hc' hg'
          rcases List.mem_cons.mp hc' with he | hm
          · subst he
            exact hle
          · exact hmin c' hm hg'
        · intro bv hbv
          cases hbv
      | some bv0 =>
        dsimp only at h
        by_cases hlt : getD rem c < bv0.2
        · rw [if_pos hlt] at h
          obtain ⟨hmin, hacc⟩ := ih _ _ h
          have hle : cv.2 ≤ getD rem c := hacc (c, getD rem c) rfl
          refine ⟨?_, ?_⟩
          · intro c' hc' hg'
            rcases List.mem_cons.mp hc' with he | hm
            · subst he
              exact hle
            · exact hmin c' hm hg'
          · intro bv hbv
            obtain rfl : bv0 = bv := Option.some_injective _ hbv
            exact le_of_lt (lt_of_le_of_lt hle hlt)
        · rw [if_neg hlt] at h
          push_neg at hlt
          obtain ⟨hmin, hacc⟩ := ih _ _ h
          have hle0 : cv.2 ≤ bv0.2 := hacc bv0 rfl
          refine ⟨?_, ?_⟩
          · intro c' hc' hg'
            rcases List.mem_cons.mp hc' with he | hm
            · subst he
              exact le_trans hle0 hlt
            · exact hmin c' hm hg'
          · intro bv hbv
            obtain rfl : bv0 = bv := Option.some_injective _ hbv
            exact hle0
    · rw [if_neg hg] at h
      obtain ⟨hmin, hacc⟩ := ih _ _ h
      refine ⟨?_, hacc⟩
      intro c' hc' hg'
      rcases List.mem_cons.mp hc' with he | hm
      · subst he
        exact absurd hg' hg
      · exact hmin c' hm hg'

theorem pickLoop_split {rem : Req} :
    ∀ (ps : List String) (acc : Option (String × ℕ)) (cv : String × ℕ),
      pickLoop rem ps acc = some cv →
      acc = some cv ∨
      ∃ ps1 ps2, ps = ps1 ++ cv.1 :: ps2 ∧ cv.2 = getD rem cv.1 ∧ 0 < cv.2 ∧
        (∀ bv, acc = some bv → cv.2 < bv.2) ∧
        ∀ c' ∈ ps1, 0 < getD rem c' → cv.2 < getD rem c' := by
  intro ps
  induction ps with
  | nil =>
    intro acc cv h
    exact Or.inl h
  | cons c cs ih =>
    intro acc cv h
    rw [pickLoop_cons] at h
    by_cases hg : 0 < getD rem c
    · rw [if_pos hg] at h
      cases acc with
      | none =>
        dsimp only at h
        rcases ih _ _ h with he | ⟨ps1, ps2, heq, hv, hvpos, haccs, hps1⟩
        · obtain rfl : cv = (c, getD rem c) := Option.some_injective _ he.symm
          right
          refine ⟨[], cs, rfl, rfl, hg, ?_, ?_⟩
          · intro bv hbv
            exact Option.noConfusion hbv
          · intro c' hc' _
            exact absurd hc' (List.not_mem_nil c')
        · right
          refine ⟨c :: ps1, ps2, by rw [heq, List.cons_append], hv, hvpos, ?_, ?_⟩
          case _ =>
            intro bv hbv
            exact Option.noConfusion hbv
          intro c' hc' hg'
          rcases List.mem_cons.mp hc' with he' | hm'
          · subst he'
            exact haccs (c', getD rem c') rfl
          · exact hps1 c' hm' hg'
      | some bv0 =>
        dsimp only at h
        by_cases hlt : getD rem c < bv0.2
        · rw [if_pos hlt] at h
          rcases ih _ _ h with he | ⟨ps1, ps2, heq, hv, hvpos, haccs, hps1⟩
          · obtain rfl : cv = (c, getD rem c) := Option.some_injective _ he.symm
            right
            refine ⟨[], cs, rfl, rfl, hg, ?_, ?_⟩
            · intro bv hbv
              obtain rfl : bv0 = bv := Option.some_injective _ hbv
              exact hlt
            · intro c' hc' _
              exact absurd hc' (List.not_mem_nil c')
          · right
            refine ⟨c :: ps1, ps2, by rw [heq, List.cons_append], hv, hvpos, ?_, ?_⟩
            · intro bv hbv
              obtain rfl : bv0 = bv := Option.some_injective _ hbv
              exact lt_trans (haccs (c, getD rem c) rfl) hlt
            · intro c' hc' hg'
              rcases List.mem_cons.mp hc' with he' | hm'
              · subst he'
                exact haccs (c', getD rem c') rfl
              · exact hps1 c' hm' hg'
        · rw [if_neg hlt] at h
          push_neg at hlt
          rcases ih _ _ h with he | ⟨ps1, ps2, heq, hv, hvpos, haccs, hps1⟩
          · exact Or.inl he
          · right
            refine ⟨c :: ps1, ps2, by rw [heq, List.cons_append], hv, hvpos, haccs, ?_⟩
            intro c' hc' hg'
            rcases List.mem_cons.mp hc' with he' | hm'
            · subst he'
              exact lt_of_lt_of_le (haccs bv0 rfl) hlt
            · exact hps1 c' hm' hg'
    · rw [if_neg hg] at h
      rcases ih _ _ h with he | ⟨ps1, ps2, heq, hv, hvpos, haccs, hps1⟩
      · exact Or.inl he
      · right
        refine ⟨c :: ps1, ps2, by rw [heq, List.cons_append], hv, hvpos, haccs, ?_⟩
        intro c' hc' hg'
        rcases List.mem_cons.mp hc' with he' | hm'
        · subst he'
          exact absurd hg' hg
        · exact hps1 c' hm' hg'

theorem gstate_assign_inv {players : List Player} {req : Req} {s : GState}
    {p : Player} {c : String} (hinv : GInv players req s)
    (hp : p ∈ players) (hu : p.id ∉ s.used) (hc : c ∈ p.positions)
    (hg : 0 < getD s.rem c) :
    GInv players req ⟨s.sel ++ [(p, c)], s.used ++ [p.id], decr s.rem c⟩ := by
  obtain ⟨h1, h2, h3, h4, h5⟩ := hinv
  refine ⟨?_, ?_, ?_, ?_, ?_⟩
  · intro pc hpc
    rcases List.mem_append.mp hpc with hh | hh
    · exact h1 pc hh
    · simp only [List.mem_singleton] at hh
      subst hh
      exact hp
  · intro pc hpc
    rcases List.mem_append.mp hpc with hh | hh
    · exact h2 pc hh
    · simp only [List.mem_singleton] at hh
      subst hh
      exact hc
  · show ((s.sel ++ [(p, c)]).map (fun pc => pc.1.id)).Nodup
    rw [List.map_append]
    have hperm : (s.sel.map (fun pc => pc.1.id) ++ [(p, c)].map (fun pc => pc.1.id)).Perm
        (p.id :: s.sel.map (fun pc => pc.1.id)) := by
      simp only [List.map_cons, List.map_nil]
      exact List.perm_append_singleton _ _
    rw [hperm.nodup_iff]
    refine List.nodup_cons.mpr ⟨?_, h3⟩
    intro hmem
    rcases List.mem_map.mp hmem with ⟨pc, hpc, hid⟩
    exact hu (hid ▸ h4 pc hpc)
  · intro pc hpc
    rcases List.mem_append.mp hpc with hh | hh
    · exact List.mem_append_left _ (h4 pc hh)
    · simp only [List.mem_singleton] at hh
      subst hh
      exact List.mem_append_right _ (List.mem_singleton_self _)
  · intro c'
    show catCount (s.sel ++ [(p, c)]) c' + getD (decr s.rem c) c' = getD req c'
    rw [catCount_append]
    by_cases hcc : c' = c
    · subst hcc
      rw [getD_decr_self]
      have hone : catCount [(p, c')] c' = 1 := by simp [catCount]
      rw [hone]
      have h6 := h5 c'
      omega
    · rw [getD_decr_ne _ hcc]
      have hzero : catCount [(p, c)] c' = 0 := by
        simp [catCount]
        exact fun he => hcc he.symm
      rw [hzero]
      have h6 := h5 c'
      omega

theorem greedyPass1_inv (players : List Player) (req : Req) :
    ∀ (rest : List Player) (s : GState),
      (∀ p ∈ rest, p ∈ players) → GInv players req s →
      GInv players req (greedyPass1 rest s) := by
  intro rest
  induction rest with
  | nil =>
    intro s _ h
    exact h
  | cons p ps ih =>
    intro s hrest hinv
    have hps : ∀ q ∈ ps, q ∈ players := fun q hq => hrest q (List.mem_cons_of_mem p hq)
    rw [greedyPass1]
    by_cases hu : p.id ∈ s.used
    · rw [if_pos hu]
      exact ih s hps hinv
    · rw [if_neg hu]
      cases hpick : pickPos s.rem p.positions with
      | none => exact ih s hps hinv
      | some cv =>
        dsimp only
        by_cases he : cv.1 = ""
        · rw [if_pos he]
          exact ih s hps hinv
        · rw [if_neg he]
          obtain ⟨hmem, _, hpos⟩ := pickPos_some hpick
          exact ih _ hps (gstate_assign_inv hinv (hrest p (List.mem_cons_self p ps)) hu hmem hpos)

theorem greedyPass2_inv (players : List Player) (req : Req) :
    ∀ (rest : List Player) (s : GState),
      (∀ p ∈ rest, p ∈ players) → GInv players req s →
      GInv players req (greedyPass2 rest s) := by
  intro rest
  induction rest with
  | nil =>
    intro s _ h
    exact h
  | cons p ps ih =>
    intro s hrest hinv
    have hps : ∀ q ∈ ps, q ∈ players := fun q hq => hrest q (List.mem_cons_of_mem p hq)
    rw [greedyPass2]
    by_cases hu : p.id ∈ s.used
    · rw [if_pos hu]
      exact ih s hps hinv
    · rw [if_neg hu]
      cases hfind : p.positions.find? (fun c => decide (0 < getD s.rem c)) with
      | none => exact ih s hps hinv
      | some c =>
        dsimp only
        have hpos : 0 < getD s.rem c := by
          have := List.find?_some hfind
          simpa using this
        have hmem : c ∈ p.positions := List.mem_of_find?_eq_some hfind
        exact ih _ hps (gstate_assign_inv hinv (hrest p (List.mem_cons_self p ps)) hu hmem hpos)

theorem optimizedGreedy_inv (players : List Player) (req : Req) :
    ∃ s2 : GState, optimizedGreedy players req = (s2.sel, totalFpts s2.sel) ∧
      GInv players req s2 := by
  have hinit : GInv players req ⟨[], [], req⟩ := by
    refine ⟨?_, ?_, ?_, ?_, ?_⟩ <;> simp [catCount]
  have hinv1 := greedyPass1_inv players req players ⟨[], [], req⟩ (fun p hp => hp) hinit
  by_cases h : 0 < sumVals (greedyPass1 players ⟨[], [], req⟩).rem
  · refine ⟨greedyPass2 players (greedyPass1 players ⟨[], [], req⟩), ?_, ?_⟩
    · simp only [optimizedGreedy, if_pos h]
    · exact greedyPass2_inv players req players _ (fun p hp => hp) hinv1
  · refine ⟨greedyPass1 players ⟨[], [], req⟩, ?_, hinv1⟩
    simp only [optimizedGreedy, if_neg h]

/-! ## Bridging lemmas -/

theorem getD_eq_zero_of_not_mem {r : Req} {c : String} (h : c ∉ r.map Prod.fst) :
    getD r c = 0 := by
  induction r with
  | nil => rfl
  | cons kv t ih =>
    simp only [List.map_cons, List.mem_cons, not_or] at h
    have hne : kv.1 ≠ c := fun he => h.1 he.symm
    simp only [getD, if_neg hne]
    exact ih h.2

theorem completeAsg_iff {req : Req} {a : Asg} (hnd : (req.map Prod.fst).Nodup) :
    CompleteAsg req a ↔ ∀ c, catCount a c = getD req c := by
  constructor
  · intro ⟨h1, h2⟩ c
    by_cases hc : c ∈ req.map Prod.fst
    · rcases List.mem_map.mp hc with ⟨kv, hkv, hfst⟩
      subst hfst
      rw [h1 kv hkv, getD_of_mem_nodup hnd hkv]
    · rw [getD_eq_zero_of_not_mem hc]
      by_contra hne
      have hpos : 0 < catCount a c := Nat.pos_of_ne_zero hne
      rw [catCount, List.countP_pos_iff] at hpos
      rcases hpos with ⟨pc, hpc, hdec⟩
      simp only [decide_eq_true_eq] at hdec
      exact hc (hdec ▸ h2 pc hpc)
  · intro h
    constructor
    · intro kv hkv
      rw [h kv.1, getD_of_mem_nodup hnd hkv]
    · intro pc hpc
      have hpos := catCount_pos hpc
      rw [h pc.2] at hpos
      exact getD_pos_mem hpos

theorem perm_map_lift {α β : Type} {f : α → β} :
    ∀ {l : List β} {E : List α}, l.Perm (E.map f) →
      ∃ E' : List α, E'.Perm E ∧ E'.map f = l := by
  intro l
  induction l with
  | nil =>
    intro E h
    have h0 : E.map f = [] := h.symm.eq_nil
    have hE : E = [] := List.map_eq_nil_iff.mp h0
    subst hE
    exact ⟨[], List.Perm.refl [], rfl⟩
  | cons a l ih =>
    intro E h
    have ha : a ∈ E.map f := h.subset (List.mem_cons_self a l)
    rcases List.mem_map.mp ha with ⟨e, he, hfe⟩
    rcases List.append_of_mem he with ⟨E1, E2, rfl⟩
    have hmid : (E1 ++ e :: E2).map f = E1.map f ++ f e :: E2.map f := by
      simp
    have hperm2 : (a :: l).Perm (a :: (E1 ++ E2).map f) := by
      refine h.trans ?_
      rw [hmid, hfe]
      have hm := @List.perm_middle _ a (E1.map f) (E2.map f)
      rw [← List.map_append] at hm
      exact hm
    have hl : l.Perm ((E1 ++ E2).map f) := hperm2.cons_inv
    rcases ih hl with ⟨E3, hE3, hmap3⟩
    refine ⟨e :: E3, ?_, ?_⟩
    · exact (hE3.cons e).trans List.perm_middle.symm
    · rw [List.map_cons, hmap3, hfe]

theorem subperm_pairs {E : Asg} {players : List Player}
    (h : List.Subperm (E.map Prod.fst) players) :
    ∃ E' : Asg, E'.Perm E ∧ List.Sublist (E'.map Prod.fst) players := by
  obtain ⟨l, hperm, hsub⟩ := h
  obtain ⟨E', hEp, hmap⟩ := perm_map_lift hperm
  exact ⟨E', hEp, hmap ▸ hsub⟩

theorem exists_pos_of_sumVals_pos {r : Req} (h : 0 < sumVals r) :
    ∃ kv ∈ r, 0 < kv.2 := by
  induction r with
  | nil => simp [sumVals] at h
  | cons kv t ih =>
    simp only [sumVals, List.map_cons, List.sum_cons] at h
    by_cases hk : 0 < kv.2
    · exact ⟨kv, List.mem_cons_self kv t, hk⟩
    · have ht : 0 < sumVals t := by
        simp only [sumVals]
        omega
      rcases ih ht with ⟨kv', hkv', hp⟩
      exact ⟨kv', List.mem_cons_of_mem kv hkv', hp⟩

theorem getD_eq_zero_of_sumVals_zero {r : Req} (h : sumVals r = 0) (c : String) :
    getD r c = 0 := by
  induction r with
  | nil => rfl
  | cons kv t ih =>
    simp only [sumVals, List.map_cons, List.sum_cons] at h
    have hkv : kv.2 = 0 := by omega
    have ht : sumVals t = 0 := by
      simp only [sumVals]
      omega
    by_cases hk : kv.1 = c
    · simp [getD, hk, hkv]
    · simp only [getD, if_neg hk]
      exact ih ht

theorem totalFpts_nonneg {a : Asg} (h : ∀ pc ∈ a, 0 ≤ pc.1.fpts) : 0 ≤ totalFpts a := by
  rw [totalFpts_eq_posSum]
  apply posSum_nonneg
  intro p hp
  rcases List.mem_map.mp hp with ⟨pc, hpc, hfst⟩
  exact hfst ▸ h pc hpc

/-- When the search recorded something, the fallback is skipped and the
recorded best is a feasible complete assignment. -/
theorem btSearch_cases (players : List Player) (req : Req) :
    (btSearch players req).1 = [] ∨
    (List.Subperm ((btSearch players req).1.map Prod.fst) players ∧
     (∀ pc ∈ (btSearch players req).1, pc.2 ∈ pc.1.positions) ∧
     (∀ c, catCount (btSearch players req).1 c = getD req c) ∧
     (btSearch players req).2 = totalFpts (btSearch players req).1) := by
  rcases btSearch_goodBest players req with he | hgb
  · left
    rw [he]
  · right
    exact hgb

/-- With non-negative values, a positive slot total and a feasible
complete assignment available, the search records a solution. -/
theorem btSearch_nonempty_of_feasible {players : List Player} {req : Req} {E : Asg}
    (hval : ∀ p ∈ players, 0 ≤ p.fpts) (hnd : (req.map Prod.fst).Nodup)
    (hT : 0 < sumVals req) (hE : FeasibleComplete players req E) :
    (btSearch players req).1 ≠ [] := by
  obtain ⟨hsubp, heligE, hcomp⟩ := hE
  have hcnt : ∀ c, catCount E c = getD req c := (completeAsg_iff hnd).mp hcomp
  obtain ⟨E', hperm, hsubl⟩ := subperm_pairs hsubp
  have hcnt' : ∀ c, catCount E' c = getD req c :=
    fun c => (catCount_perm hperm c).trans (hcnt c)
  have helig' : ∀ pc ∈ E', pc.2 ∈ pc.1.positions :=
    fun pc hpc => heligE pc (hperm.subset hpc)
  have hfound : 0 ≤ (btSearch players req).2 :=
    backtrack_found (sumVals req) players [] req 0 ([], -1) E'
      hval (le_refl 0) hnd hsubl helig' hcnt'
  intro hnil
  rcases btSearch_cases players req with _ | hgb
  · rcases btSearch_goodBest players req with he | hgb2
    · rw [he] at hfound
      norm_num at hfound
    · obtain ⟨kv, hkv, hkvpos⟩ := exists_pos_of_sumVals_pos hT
      have hc := hgb2.2.2.1 kv.1
      rw [hnil] at hc
      rw [getD_of_mem_nodup hnd hkv] at hc
      rw [catCount_nil] at hc
      omega
  · obtain ⟨kv, hkv, hkvpos⟩ := exists_pos_of_sumVals_pos hT
    have hc := hgb.2.2.1 kv.1
    rw [hnil] at hc
    rw [getD_of_mem_nodup hnd hkv] at hc
    rw [catCount_nil] at hc
    omega

/-- The exact solver's returned value dominates every feasible complete
assignment, provided the candidate list is sorted by value descending
(required for the pruning bound) and values are non-negative. -/
theorem exact_ge_feasible {players : List Player} {req : Req} {E : Asg}
    (hsort : SortedDesc players) (hval : ∀ p ∈ players, 0 ≤ p.fpts)
    (hnd : (req.map Prod.fst).Nodup) (hE : FeasibleComplete players req E) :
    totalFpts E ≤ (backtrackOptimize players req).2 := by
  obtain ⟨hsubp, heligE, hcomp⟩ := hE
  have hcnt : ∀ c, catCount E c = getD req c := (completeAsg_iff hnd).mp hcomp
  obtain ⟨E', hperm, hsubl⟩ := subperm_pairs hsubp
  have hcnt' : ∀ c, catCount E' c = getD req c :=
    fun c => (catCount_perm hperm c).trans (hcnt c)
  have helig' : ∀ pc ∈ E', pc.2 ∈ pc.1.positions :=
    fun pc hpc => heligE pc (hperm.subset hpc)
  have hval' : totalFpts E' = totalFpts E := totalFpts_perm hperm
  by_cases hnil : (btSearch players req).1 = []
  · by_cases hT : 0 < sumVals req
    · exact absurd hnil
        (btSearch_nonempty_of_feasible hval hnd hT ⟨hsubp, heligE, hcomp⟩)
    · have hT0 : sumVals req = 0 := by omega
      have hE0 : E = [] := by
        apply eq_nil_of_catCount_zero
        intro c
        rw [hcnt c]
        exact getD_eq_zero_of_sumVals_zero hT0 c
      rw [hE0, totalFpts_nil]
      rw [backtrackOptimize, if_pos hnil]
      obtain ⟨s2, heq, hinv⟩ := optimizedGreedy_inv players req
      rw [heq]
      exact totalFpts_nonneg (fun pc hpc => hval pc.1 (hinv.1 pc hpc))
  · rw [backtrackOptimize, if_neg hnil]
    have hge : 0 + totalFpts E' ≤ (btSearch players req).2 := by
      apply backtrack_ge_ext (sumVals req) players [] req 0 ([], -1) E'
        hsort hnd (by simp) hsubl helig' hcnt'
    rw [hval'] at hge
    linarith

/-! ## Exchange argument for greedy dominance -/

theorem sum_catCount_eq_countP {α : Type} {ks : List String} (hnd : ks.Nodup) :
    ∀ (a : List (α × String)),
      (ks.map (catCount a)).sum = a.countP (fun x => decide (x.2 ∈ ks)) := by
  intro a
  induction a with
  | nil =>
    have h1 : ks.map (catCount ([] : List (α × String))) = ks.map (fun _ => 0) :=
      List.map_congr_left (fun k _ => rfl)
    simp [h1]
  | cons x t ih =>
    have h1 : ks.map (catCount (x :: t)) =
        ks.map (fun k => catCount t k + (if x.2 = k then 1 else 0)) :=
      List.map_congr_left (fun k _ => catCount_cons x t k)
    rw [h1, sum_map_addf, ih, List.countP_cons]
    by_cases hx : x.2 ∈ ks
    · rw [sum_indicator_nodup hnd hx]
      simp [hx]
    · rw [sum_indicator_not_mem hx]
      simp [hx]

theorem length_le_sumVals {α : Type} {a : List (α × String)} {r : Req}
    (hnd : (r.map Prod.fst).Nodup) (h : ∀ c, catCount a c ≤ getD r c) :
    a.length ≤ sumVals r := by
  have hmem : ∀ x ∈ a, x.2 ∈ r.map Prod.fst := fun x hx =>
    getD_pos_mem (lt_of_lt_of_le (catCount_pos hx) (h x.2))
  have h1 := sum_catCount hnd hmem
  have h2 : ((r.map Prod.fst).map (catCount a)).sum ≤
      ((r.map Prod.fst).map (getD r)).sum :=
    List.sum_le_sum (fun k _ => h k)
  rw [sum_getD_eq_sumVals hnd] at h2
  omega

theorem map_sum_le_ext {ks : List String} {f g : String → ℕ}
    (hle : ∀ k ∈ ks, f k ≤ g k) (hsum : (ks.map g).sum ≤ (ks.map f).sum) :
    ∀ k ∈ ks, f k = g k := by
  induction ks with
  | nil =>
    intro k hk
    cases hk
  | cons k t ih =>
    have hfle := hle k (List.mem_cons_self k t)
    have htle : (t.map f).sum ≤ (t.map g).sum :=
      List.sum_le_sum (fun k' hk' => hle k' (List.mem_cons_of_mem k hk'))
    simp only [List.map_cons, List.sum_cons] at hsum
    intro k' hk'
    rcases List.mem_cons.mp hk' with he | hm
    · subst he
      omega
    · exact ih (fun j hj => hle j (List.mem_cons_of_mem k hj)) (by omega) k' hm

theorem counts_eq_of_length {α : Type} {a : List (α × String)} {r : Req}
    (hnd : (r.map Prod.fst).Nodup) (hle : ∀ c, catCount a c ≤ getD r c)
    (hlen : a.length = sumVals r) : ∀ c, catCount a c = getD r c := by
  have hmem : ∀ x ∈ a, x.2 ∈ r.map Prod.fst := fun x hx =>
    getD_pos_mem (lt_of_lt_of_le (catCount_pos hx) (hle x.2))
  have h1 := sum_catCount hnd hmem
  have hsum : ((r.map Prod.fst).map (getD r)).sum ≤
      ((r.map Prod.fst).map (catCount a)).sum := by
    rw [sum_getD_eq_sumVals hnd, h1, hlen]
  have hkey := map_sum_le_ext (fun k _ => hle k) hsum
  intro c
  by_cases hc : c ∈ r.map Prod.fst
  · exact hkey c hc
  · rw [getD_eq_zero_of_not_mem hc]
    by_contra hne
    have hpos : 0 < catCount a c := Nat.pos_of_ne_zero hne
    rw [catCount, List.countP_pos_iff] at hpos
    rcases hpos with ⟨x, hx, hdec⟩
    simp only [decide_eq_true_eq] at hdec
    exact hc (hdec ▸ hmem x hx)

theorem exists_cat_lt {A B : List (Tok × String)} (hlen : A.length < B.length) :
    ∃ d, catCount A d < catCount B d := by
  by_contra h
  push_neg at h
  have hnd : ((B.map Prod.snd).dedup).Nodup := List.nodup_dedup _
  have hmem : ∀ x ∈ B, x.2 ∈ (B.map Prod.snd).dedup := fun x hx =>
    List.mem_dedup.mpr (List.mem_map_of_mem Prod.snd hx)
  have h1 : (((B.map Prod.snd).dedup).map (catCount B)).sum = B.length :=
    sum_catCount hnd hmem
  have h2 : (((B.map Prod.snd).dedup).map (catCount B)).sum ≤
      (((B.map Prod.snd).dedup).map (catCount A)).sum :=
    List.sum_le_sum (fun d _ => h d)
  have h3 : (((B.map Prod.snd).dedup).map (catCount A)).sum ≤ A.length := by
    rw [sum_catCount_eq_countP hnd]
    exact List.countP_le_length _
  omega

theorem catCount_untag (l : List (Tok × String)) (c : String) :
    catCount (untag l) c = catCount l c := by
  rw [catCount, untag, List.countP_map]
  rfl

theorem untag_elig {l : List (Tok × String)} (h : ∀ q ∈ l, q.2 ∈ q.1.2.positions) :
    ∀ pc ∈ untag l, pc.2 ∈ pc.1.positions := by
  intro pc hpc
  rcases List.mem_map.mp hpc with ⟨q, hq, hmap⟩
  subst hmap
  exact h q hq

theorem totalFpts_untag (l : List (Tok × String)) :
    totalFpts (untag l) = posSum ((l.map Prod.fst).map Prod.snd) := by
  rw [totalFpts, untag, posSum, List.map_map, List.map_map, List.map_map]
  rfl

/-- One augmentation step of the transversal-exchange argument: if `A`
and `B` are capacity-respecting eligible token assignments with
pairwise-distinct tokens and `A` is strictly smaller, then some token of
`B` outside `A` can be added to `A` after reassigning `A`'s categories.
Strong induction on the number of tokens on which `A` and `B` disagree. -/
theorem tok_augment (req : Req) (B : List (Tok × String))
    (hBnd : (B.map Prod.fst).Nodup)
    (heB : ∀ q ∈ B, q.2 ∈ q.1.2.positions)
    (hcB : ∀ c, catCount B c ≤ getD req c) :
    ∀ (k : ℕ) (A : List (Tok × String)),
      disagree A B = k →
      (A.map Prod.fst).Nodup →
      (∀ q ∈ A, q.2 ∈ q.1.2.positions) →
      (∀ c, catCount A c ≤ getD req c) →
      A.length < B.length →
      ∃ (t : Tok) (A' : List (Tok × String)),
        t ∈ B.map Prod.fst ∧ t ∉ A.map Prod.fst ∧
        (A'.map Prod.fst).Perm (t :: A.map Prod.fst) ∧
        (∀ q ∈ A', q.2 ∈ q.1.2.positions) ∧
        (∀ c, catCount A' c ≤ getD req c) := by
  intro k
  induction k using Nat.strong_induction_on with
  | _ k ih =>
    intro A hdis hAnd heA hcA hlen
    by_cases hcase : ∃ q ∈ B, q.1 ∉ A.map Prod.fst ∧ catCount A q.2 < getD req q.2
    · rcases hcase with ⟨q, hqB, hqnotA, hroom⟩
      refine ⟨q.1, (q.1, q.2) :: A, List.mem_map_of_mem Prod.fst hqB, hqnotA,
        by rw [List.map_cons], ?_, ?_⟩
      · intro x hx
        rcases List.mem_cons.mp hx with he | hm
        · subst he
          exact heB q hqB
        · exact heA x hm
      · intro c
        rw [catCount_cons]
        by_cases hc : (q.1, q.2).2 = c
        · dsimp only at hc
          rw [if_pos hc, ← hc]
          omega
        · rw [if_neg hc]
          have := hcA c
          omega
    · push_neg at hcase
      obtain ⟨d, hd⟩ := exists_cat_lt hlen
      have hroomd : catCount A d < getD req d := lt_of_lt_of_le hd (hcB d)
      have hBd_in_A : ∀ q ∈ B, q.2 = d → q.1 ∈ A.map Prod.fst := by
        intro q hq hqd
        by_contra hnot
        have h2 := hcase q hq hnot
        rw [hqd] at h2
        omega
      have hx : ∃ x ∈ A, (∃ q ∈ B, q.1 = x.1 ∧ q.2 = d) ∧ x.2 ≠ d := by
        by_contra hno
        push_neg at hno
        have hsubset : (B.filter (fun q => decide (q.2 = d))).map Prod.fst ⊆
            (A.filter (fun x => decide (x.2 = d))).map Prod.fst := by
          intro tk htk
          rcases List.mem_map.mp htk with ⟨q, hqf, hq1⟩
          have hqB : q ∈ B := List.mem_of_mem_filter hqf
          have hqd : q.2 = d := by
            have h2 := List.of_mem_filter hqf
            simpa using h2
          have htkA : q.1 ∈ A.map Prod.fst := hBd_in_A q hqB hqd
          rcases List.mem_map.mp htkA with ⟨x, hxA, hx1⟩
          have hxd : x.2 = d := hno x hxA ⟨q, hqB, by rw [hx1], hqd⟩
          have hxf : x ∈ A.filter (fun x => decide (x.2 = d)) :=
            List.mem_filter.mpr ⟨hxA, by simp [hxd]⟩
          have h3 : x.1 ∈ (A.filter (fun x => decide (x.2 = d))).map Prod.fst :=
            List.mem_map_of_mem Prod.fst hxf
          rw [hx1, hq1] at h3
          exact h3
        have hBdnd : ((B.filter (fun q => decide (q.2 = d))).map Prod.fst).Nodup :=
          List.Nodup.sublist ((List.filter_sublist B).map Prod.fst) hBnd
        have hsp := (hBdnd.subperm hsubset).length_le
        rw [List.length_map, List.length_map] at hsp
        rw [← List.countP_eq_length_filter, ← List.countP_eq_length_filter] at hsp
        have hBA : catCount B d ≤ catCount A d := hsp
        omega
      rcases hx with ⟨x, hxA, ⟨q, hqB, hq1, hq2⟩, hxd⟩
      rcases List.append_of_mem hxA with ⟨A1, A2, hAeq⟩
      subst hAeq
      have hmid : (A1.map Prod.fst ++ x.1 :: A2.map Prod.fst).Nodup := by
        simpa using hAnd
      rcases List.nodup_append.mp hmid with ⟨h1nd, h2nd, hdisj⟩
      have hx1A2 : x.1 ∉ A2.map Prod.fst := (List.nodup_cons.mp h2nd).1
      have hx1A1 : x.1 ∉ A1.map Prod.fst :=
        fun hin => hdisj hin (List.mem_cons_self _ _)
      have hA0fst : (A1 ++ (x.1, d) :: A2).map Prod.fst =
          (A1 ++ x :: A2).map Prod.fst := by
        simp
      have hA0nd : ((A1 ++ (x.1, d) :: A2).map Prod.fst).Nodup := by
        rw [hA0fst]
        exact hAnd
      have hA0elig : ∀ y ∈ A1 ++ (x.1, d) :: A2, y.2 ∈ y.1.2.positions := by
        intro y hy
        rcases List.mem_append.mp hy with h1 | h2
        · exact heA y (List.mem_append_left _ h1)
        · rcases List.mem_cons.mp h2 with he | hm
          · subst he
            show d ∈ x.1.2.positions
            rw [← hq1, ← hq2]
            exact heB q hqB
          · exact heA y (List.mem_append_right _ (List.mem_cons_of_mem x hm))
      have hA0cnt : ∀ c, catCount (A1 ++ (x.1, d) :: A2) c ≤ getD req c := by
        intro c
        have horig := hcA c
        rw [catCount_append, catCount_cons] at horig ⊢
        have hro := hroomd
        rw [catCount_append, catCount_cons] at hro
        rw [if_neg hxd] at hro
        by_cases hc : (x.1, d).2 = c
        · dsimp only at hc
          subst hc
          rw [if_pos rfl]
          omega
        · rw [if_neg hc]
          dsimp only at hc
          by_cases hxc : x.2 = c
          · rw [if_pos hxc] at horig
            omega
          · rw [if_neg hxc] at horig
            omega
      have hpredx : decide (∃ q' ∈ B, q'.1 = x.1 ∧ q'.2 ≠ x.2) = true := by
        rw [decide_eq_true_eq]
        refine ⟨q, hqB, hq1, ?_⟩
        rw [hq2]
        exact fun he => hxd he.symm
      have hpredxd :
          decide (∃ q' ∈ B, q'.1 = (x.1, d).1 ∧ q'.2 ≠ (x.1, d).2) = false := by
        rw [decide_eq_false_iff_not]
        rintro ⟨q', hq'B, hq'1, hq'2⟩
        have hq'q : q' = q :=
          List.inj_on_of_nodup_map hBnd hq'B hqB (by rw [hq'1, hq1])
        apply hq'2
        rw [hq'q, hq2]
      have hdec : disagree (A1 ++ (x.1, d) :: A2) B + 1 =
          disagree (A1 ++ x :: A2) B := by
        rw [disagree, disagree, List.countP_append, List.countP_append,
          List.countP_cons, List.countP_cons, hpredx, hpredxd]
        simp
        omega
      have hklt : disagree (A1 ++ (x.1, d) :: A2) B < k := by
        omega
      have hA0len : (A1 ++ (x.1, d) :: A2).length < B.length := by
        simp only [List.length_append, List.length_cons] at hlen ⊢
        exact hlen
      obtain ⟨t, A', htB, htnot, hperm, he', hc'⟩ :=
        ih (disagree (A1 ++ (x.1, d) :: A2) B) hklt (A1 ++ (x.1, d) :: A2)
          rfl hA0nd hA0elig hA0cnt hA0len
      rw [hA0fst] at htnot hperm
      exact ⟨t, A', htB, htnot, hperm, he', hc'⟩

/-- Iterating `tok_augment`: a smaller assignment extends (as a token
set) to one of the same size as `B`, keeping eligibility and
capacities, adding only tokens of `B`. -/
theorem tok_extend (req : Req) (B : List (Tok × String))
    (hBnd : (B.map Prod.fst).Nodup)
    (heB : ∀ q ∈ B, q.2 ∈ q.1.2.positions)
    (hcB : ∀ c, catCount B c ≤ getD req c) :
    ∀ (n : ℕ) (A : List (Tok × String)),
      B.length - A.length = n →
      (A.map Prod.fst).Nodup →
      (∀ q ∈ A, q.2 ∈ q.1.2.positions) →
      (∀ c, catCount A c ≤ getD req c) →
      A.length ≤ B.length →
      ∃ (A' : List (Tok × String)) (ts : List Tok),
        A'.length = B.length ∧
        (A'.map Prod.fst).Perm (ts ++ A.map Prod.fst) ∧
        (∀ t ∈ ts, t ∈ B.map Prod.fst) ∧
        (A'.map Prod.fst).Nodup ∧
        (∀ q ∈ A', q.2 ∈ q.1.2.positions) ∧
        (∀ c, catCount A' c ≤ getD req c) := by
  intro n
  induction n with
  | zero =>
    intro A h0 hnd he hc hle
    refine ⟨A, [], by omega, by simp, ?_, hnd, he, hc⟩
    intro t ht
    exact absurd ht (List.not_mem_nil t)
  | succ m ih =>
    intro A hm hnd he hc _
    have hlt : A.length < B.length := by omega
    obtain ⟨t, A1, htB, htA, hperm, he1, hc1⟩ :=
      tok_augment req B hBnd heB hcB (disagree A B) A rfl hnd he hc hlt
    have hnd1 : (A1.map Prod.fst).Nodup := by
      rw [hperm.nodup_iff]
      exact List.nodup_cons.mpr ⟨htA, hnd⟩
    have hlen1 : A1.length = A.length + 1 := by
      have h2 := hperm.length_eq
      simpa using h2
    have hle1 : A1.length ≤ B.length := by omega
    obtain ⟨A', ts, hlenA', hpermA', htsB, hnd', he', hc'⟩ :=
      ih A1 (by omega) hnd1 he1 hc1 hle1
    refine ⟨A', ts ++ [t], hlenA', ?_, ?_, hnd', he', hc'⟩
    · have h3 : (ts ++ [t]) ++ A.map Prod.fst = ts ++ (t :: A.map Prod.fst) := by
        rw [List.append_assoc]
        rfl
      rw [h3]
      exact hpermA'.trans (hperm.append_left ts)
    · intro u hu
      rcases List.mem_append.mp hu with h1 | h2
      · exact htsB u h1
      · simp only [List.mem_singleton] at h2
        subst h2
        exact htB

theorem erase_tok_map_snd {p : Player} :
    ∀ {t : List Tok} {tok : Tok},
      t.find? (fun q => decide (q.2 = p)) = some tok →
      (t.erase tok).map Prod.snd = (t.map Prod.snd).erase p := by
  intro t
  induction t with
  | nil =>
    intro tok hfind
    cases hfind
  | cons q ts ih =>
    intro tok hfind
    rw [List.find?_cons] at hfind
    by_cases hq : q.2 = p
    · simp only [hq, decide_True] at hfind
      obtain rfl : q = tok := Option.some_injective _ hfind
      rw [List.erase_cons_head, List.map_cons, hq, List.erase_cons_head]
    · simp only [hq, decide_False] at hfind
      have htokp : tok.2 = p := by
        have h2 := List.find?_some hfind
        simpa using h2
      have hqtok : q ≠ tok := fun he => hq (he ▸ htokp)
      rw [List.erase_cons_tail (by simpa using hqtok), List.map_cons, List.map_cons,
        List.erase_cons_tail (by simp [hq]), ih hfind]

/-- Any plain assignment drawing its players from the master list lifts
to a token-level assignment with pairwise distinct tokens taken from
the given token list. -/
theorem tag_exists :
    ∀ (E : Asg) (t : List Tok),
      (t.map Prod.fst).Nodup →
      List.Subperm (E.map Prod.fst) (t.map Prod.snd) →
      ∃ Etok : List (Tok × String),
        ((Etok.map Prod.fst).map Prod.fst).Nodup ∧
        (∀ q ∈ Etok, q.1 ∈ t) ∧ (untag Etok).Perm E := by
  intro E
  induction E with
  | nil =>
    intro t _ _
    refine ⟨[], by simp, ?_, by simp [untag]⟩
    intro q hq
    exact absurd hq (List.not_mem_nil q)
  | cons pc E' ihE =>
    intro t hnd hsub
    have hmem : pc.1 ∈ t.map Prod.snd := by
      apply hsub.subset
      rw [List.map_cons]
      exact List.mem_cons_self _ _
    have hfind : ∃ tok, t.find? (fun q => decide (q.2 = pc.1)) = some tok := by
      cases hf : t.find? (fun q => decide (q.2 = pc.1)) with
      | some tok => exact ⟨tok, rfl⟩
      | none =>
        exfalso
        rcases List.mem_map.mp hmem with ⟨tok, htokmem, htoksnd⟩
        have h2 := List.find?_eq_none.mp hf tok htokmem
        simp [htoksnd] at h2
    obtain ⟨tok, hfind⟩ := hfind
    have htokmem : tok ∈ t := List.mem_of_find?_eq_some hfind
    have htoksnd : tok.2 = pc.1 := by
      have h2 := List.find?_some hfind
      simpa using h2
    have hsub' : List.Subperm (E'.map Prod.fst) ((t.erase tok).map Prod.snd) := by
      rw [erase_tok_map_snd hfind]
      rw [List.subperm_ext_iff]
      intro y hy
      have hsub2 := List.subperm_ext_iff.mp hsub
      by_cases hyp : y = pc.1
      · subst hyp
        have h2 := hsub2 pc.1 (by rw [List.map_cons]; exact List.mem_cons_self _ _)
        rw [List.map_cons, List.count_cons_self] at h2
        rw [List.count_erase_self]
        omega
      · have h2 := hsub2 y
          (by rw [List.map_cons]; exact List.mem_cons_of_mem _ hy)
        rw [List.map_cons, List.count_cons_of_ne hyp] at h2
        rw [List.count_erase_of_ne hyp]
        exact h2
    have hnd' : ((t.erase tok).map Prod.fst).Nodup :=
      List.Nodup.sublist ((t.erase_sublist tok).map Prod.fst) hnd
    obtain ⟨Etok2, hndEtok2, hmemEtok2, hpermEtok2⟩ := ihE (t.erase tok) hnd' hsub'
    refine ⟨(tok, pc.2) :: Etok2, ?_, ?_, ?_⟩
    · rw [List.map_cons, List.map_cons, List.nodup_cons]
      refine ⟨?_, hndEtok2⟩
      intro hin
      rcases List.mem_map.mp hin with ⟨tk, htk, htk1⟩
      rcases List.mem_map.mp htk with ⟨qq, hqq, hqq1⟩
      have hqe : qq.1 ∈ t.erase tok := hmemEtok2 qq hqq
      have hqt : qq.1 ∈ t := (t.erase_sublist tok).subset hqe
      have htnd : t.Nodup := List.Nodup.of_map Prod.fst hnd
      have hne : qq.1 ≠ tok := (htnd.mem_erase_iff.mp hqe).1
      have heq : qq.1 = tok :=
        List.inj_on_of_nodup_map hnd hqt htokmem (by rw [hqq1, htk1])
      exact hne heq
    · intro qq hqq
      rcases List.mem_cons.mp hqq with he | hm
      · subst he
        exact htokmem
      · exact (t.erase_sublist tok).subset (hmemEtok2 qq hm)
    · show ((untag ((tok, pc.2) :: Etok2))).Perm (pc :: E')
      rw [untag, List.map_cons]
      have h2 : ((tok, pc.2).1.2, (tok, pc.2).2) = pc := by
        dsimp only
        rw [htoksnd]
      rw [h2]
      exact (hpermEtok2).cons pc

/-! ## Claim theorems -/

/-- **C2** — Capacity invariant: in the assignment returned by either
solver the number of candidates assigned to a category never exceeds
that category's required count, and a complete returned assignment
meets every requirement entry exactly (completeness of an assignment is
defined as exact per-category counts, so the second part holds by that
definition). -/
theorem C2_capacity_invariant (players : List Player) (req : Req) (c : String) :
    (catCount (backtrackOptimize players req).1 c ≤ getD req c ∧
      catCount (optimizedGreedy players req).1 c ≤ getD req c) ∧
    ((CompleteAsg req (backtrackOptimize players req).1 →
        ∀ kv ∈ req, catCount (backtrackOptimize players req).1 kv.1 = kv.2) ∧
      (CompleteAsg req (optimizedGreedy players req).1 →
        ∀ kv ∈ req, catCount (optimizedGreedy players req).1 kv.1 = kv.2)) := by
  have hg : catCount (optimizedGreedy players req).1 c ≤ getD req c := by
    obtain ⟨s2, heq, hinv⟩ := optimizedGreedy_inv players req
    rw [heq]
    show catCount s2.sel c ≤ getD req c
    have h5 := hinv.2.2.2.2 c
    omega
  refine ⟨⟨?_, hg⟩, fun h => h.1, fun h => h.1⟩
  by_cases hnil : (btSearch players req).1 = []
  · rw [backtrackOptimize, if_pos hnil]
    exact hg
  · rw [backtrackOptimize, if_neg hnil]
    rcases btSearch_cases players req with h | hgb
    · exact absurd h hnil
    · rw [hgb.2.2.1 c]

/-- **C3** — Admissibility of the pruning bound: for a value-sorted
candidate list with non-negative values, at any search state (position
index `i`, `k` candidates assigned, accumulated value `v`,
`slots_remaining = T - k`), the bound
`v + sum(values of players[i .. i+slots_remaining))` dominates the total
value of every complete extension of the state, so pruning on
`bound ≤ best_value_so_far` discards no extension better than the best
so far. -/
theorem C3_bound_admissible (players : List Player) (i : ℕ) (rem : Req)
    (k T : ℕ) (v bestv : ℚ) (tail : Asg)
    (hsort : SortedDesc players) (hval : ∀ p ∈ players, 0 ≤ p.fpts)
    (hnd : (rem.map Prod.fst).Nodup)
    (hslots : k + sumVals rem = T)
    (htsub : List.Sublist (tail.map Prod.fst) (players.drop i))
    (helig : ∀ pc ∈ tail, pc.2 ∈ pc.1.positions)
    (hcnt : ∀ c, catCount tail c = getD rem c) :
    v + totalFpts tail ≤ v + posSum ((players.drop i).take (T - k)) ∧
    (v + posSum ((players.drop i).take (T - k)) ≤ bestv →
      v + totalFpts tail ≤ bestv) := by
  have hlen : tail.length = sumVals rem := length_of_complete hnd hcnt
  have hsd : SortedDesc (players.drop i) :=
    List.Pairwise.sublist (List.drop_sublist i players) hsort
  have hb := posSum_sublist_le htsub hsd
  rw [List.length_map, hlen] at hb
  have hTk : sumVals rem = T - k := by omega
  rw [hTk] at hb
  rw [totalFpts_eq_posSum]
  constructor
  · linarith
  · intro hle
    linarith

/-- **C4** — Eligibility invariant: every (candidate, category) pair in
the assignment returned by the solver (exact search or greedy fallback)
has its category drawn from that candidate's eligible-category set. -/
theorem C4_eligibility (players : List Player) (req : Req) :
    (∀ pc ∈ (backtrackOptimize players req).1, pc.2 ∈ pc.1.positions) ∧
    (∀ pc ∈ (optimizedGreedy players req).1, pc.2 ∈ pc.1.positions) := by
  have hg : ∀ pc ∈ (optimizedGreedy players req).1, pc.2 ∈ pc.1.positions := by
    obtain ⟨s2, heq, hinv⟩ := optimizedGreedy_inv players req
    rw [heq]
    exact hinv.2.1
  refine ⟨?_, hg⟩
  by_cases hnil : (btSearch players req).1 = []
  · rw [backtrackOptimize, if_pos hnil]
    exact hg
  · rw [backtrackOptimize, if_neg hnil]
    rcases btSearch_cases players req with h | hgb
    · exact absurd h hnil
    · exact hgb.2.1

/-- **C5** — Uniqueness invariant: when the candidate ids in the input
are pairwise distinct, no candidate id appears more than once in the
assignment returned by either solver. -/
theorem C5_uniqueness (players : List Player) (req : Req)
    (hnd : (players.map Player.id).Nodup) :
    ((backtrackOptimize players req).1.map (fun pc => pc.1.id)).Nodup ∧
    ((optimizedGreedy players req).1.map (fun pc => pc.1.id)).Nodup := by
  have hg : ((optimizedGreedy players req).1.map (fun pc => pc.1.id)).Nodup := by
    obtain ⟨s2, heq, hinv⟩ := optimizedGreedy_inv players req
    rw [heq]
    exact hinv.2.2.1
  refine ⟨?_, hg⟩
  by_cases hnil : (btSearch players req).1 = []
  · rw [backtrackOptimize, if_pos hnil]
    exact hg
  · rw [backtrackOptimize, if_neg hnil]
    rcases btSearch_cases players req with h | hgb
    · exact absurd h hnil
    · obtain ⟨l, hperm, hsub⟩ := hgb.1
      have hsubl : List.Sublist (l.map Player.id) (players.map Player.id) := hsub.map _
      have hlnd : (l.map Player.id).Nodup := List.Nodup.sublist hsubl hnd
      have hpermids : (l.map Player.id).Perm
          (((btSearch players req).1.map Prod.fst).map Player.id) := hperm.map _
      have h2 : (((btSearch players req).1.map Prod.fst).map Player.id).Nodup :=
        hpermids.nodup_iff.mp hlnd
      rw [List.map_map] at h2
      exact h2

/-- **C9** — Empty-group behaviour: on an empty candidate list with a
requirement holding at least one positive count, the solver returns the
empty assignment with total value zero, and that result is incomplete.
(The embedding is a total function, so no exception can arise.) -/
theorem C9_empty_candidates (req : Req) (kv : String × ℕ) (hkv : kv ∈ req)
    (hpos : 0 < kv.2) :
    backtrackOptimize [] req = ([], 0) ∧ ¬ CompleteAsg req [] := by
  have hz : ¬ (allZero req = true) := by
    intro h
    have h2 := List.all_eq_true.mp h kv hkv
    simp only [beq_iff_eq] at h2
    omega
  have hsearch : btSearch [] req = ([], -1) := by
    simp only [btSearch, backtrack]
    rw [if_neg hz]
  have hT : 0 < sumVals req := by
    have h2 : kv.2 ≤ sumVals req := by
      apply List.single_le_sum (fun x _ => Nat.zero_le x)
      exact List.mem_map_of_mem Prod.snd hkv
    omega
  have hgreedy : optimizedGreedy [] req = ([], 0) := by
    have h1 : greedyPass1 [] (⟨[], [], req⟩ : GState) = ⟨[], [], req⟩ := rfl
    have h2 : greedyPass2 [] (⟨[], [], req⟩ : GState) = ⟨[], [], req⟩ := rfl
    simp only [optimizedGreedy, h1, h2, if_pos hT]
    rfl
  constructor
  · rw [backtrackOptimize, hsearch, if_pos rfl]
    exact hgreedy
  · intro hcomp
    have h2 := hcomp.1 kv hkv
    rw [catCount_nil] at h2
    omega

/-- **C10** — Implicit fallback condition: with non-negative values and
a positive slot total, the search leaves `best_solution` empty (and so
`_backtrack_optimize` returns the greedy fallback's result) exactly
when no feasible complete assignment exists; when one exists the
returned assignment is itself complete and the fallback is skipped. -/
theorem C10_fallback_iff (players : List Player) (req : Req)
    (hval : ∀ p ∈ players, 0 ≤ p.fpts) (hnd : (req.map Prod.fst).Nodup)
    (hT : 0 < sumVals req) :
    ((btSearch players req).1 = [] ↔ ¬ ∃ E, FeasibleComplete players req E) ∧
    ((btSearch players req).1 = [] →
      backtrackOptimize players req = optimizedGreedy players req) ∧
    (∀ E, FeasibleComplete players req E →
      (btSearch players req).1 ≠ [] ∧
      CompleteAsg req (backtrackOptimize players req).1) := by
  refine ⟨⟨?_, ?_⟩, ?_, ?_⟩
  · intro hnil hex
    rcases hex with ⟨E, hE⟩
    exact btSearch_nonempty_of_feasible hval hnd hT hE hnil
  · intro hnone
    by_contra hne
    apply hnone
    rcases btSearch_cases players req with h | hgb
    · exact absurd h hne
    · exact ⟨(btSearch players req).1, hgb.1, hgb.2.1,
        (completeAsg_iff hnd).mpr hgb.2.2.1⟩
  · intro h
    rw [backtrackOptimize, if_pos h]
  · intro E hE
    have hne := btSearch_nonempty_of_feasible hval hnd hT hE
    refine ⟨hne, ?_⟩
    rw [backtrackOptimize, if_neg hne]
    rcases btSearch_cases players req with h | hgb
    · exact absurd h hne
    · exact (completeAsg_iff hnd).mpr hgb.2.2.1

/-- **C1** counterexample — on an input *not* sorted by value
descending (values 10, 1, 100), the pruning bound is not admissible:
the solver returns total 10 while the feasible complete assignment
putting the 100-point candidate at C is worth 100. -/
theorem C1_counterexample :
    (∀ p ∈ [(⟨"1", ["C"], 10⟩ : Player), ⟨"2", ["C"], 1⟩, ⟨"3", ["C"], 100⟩],
      0 ≤ p.fpts) ∧
    FeasibleComplete [⟨"1", ["C"], 10⟩, ⟨"2", ["C"], 1⟩, ⟨"3", ["C"], 100⟩]
      [("C", 1)] [(⟨"3", ["C"], 100⟩, "C")] ∧
    totalFpts [((⟨"3", ["C"], 100⟩ : Player), "C")] = 100 ∧
    (backtrackOptimize [⟨"1", ["C"], 10⟩, ⟨"2", ["C"], 1⟩, ⟨"3", ["C"], 100⟩]
      [("C", 1)]).2 = 10 ∧
    ¬ ((100 : ℚ) ≤ 10) := by
  refine ⟨?_, ?_, ?_, ?_, ?_⟩
  · decide
  · decide
  · with_unfolding_all rfl
  · with_unfolding_all rfl
  · norm_num

/-- **C1 (amended)** — Optimality of the exact solver for candidate
lists *sorted by value descending* (the precondition `optimize_roster`
establishes and the pruning bound requires) with non-negative values:
whenever a feasible complete assignment exists, the value returned by
`_backtrack_optimize` is at least that assignment's value. -/
theorem C1_amended_optimality (players : List Player) (req : Req) (E : Asg)
    (hsort : SortedDesc players) (hval : ∀ p ∈ players, 0 ≤ p.fpts)
    (hnd : (req.map Prod.fst).Nodup) (hE : FeasibleComplete players req E) :
    totalFpts E ≤ (backtrackOptimize players req).2 :=
  exact_ge_feasible hsort hval hnd hE

/-- **C8** counterexample — the public `optimize_roster` hardcodes the
default requirement: it is definitionally the exact solver applied at
`defaultReq`, and the requirement genuinely matters (a goalie-less
eligible set "X" solves under `{X:1}` but yields the empty assignment
under the default). -/
theorem C8_counterexample :
    (optimizeRoster = fun tp => backtrackOptimize (sortByFpts tp) defaultReq) ∧
    (backtrackOptimize [⟨"1", ["X"], 10⟩] [("X", 1)]).1 =
      [((⟨"1", ["X"], 10⟩ : Player), "X")] ∧
    (backtrackOptimize [⟨"1", ["X"], 10⟩] defaultReq).1 = [] ∧
    ([((⟨"1", ["X"], 10⟩ : Player), "X")] : Asg) ≠ [] := by
  refine ⟨rfl, ?_, ?_, ?_⟩
  · with_unfolding_all rfl
  · with_unfolding_all rfl
  · simp

/-- **C8 (amended)** — the internal `_backtrack_optimize` accepts an
arbitrary category-to-count mapping as a parameter, but the public
`optimize_roster` always invokes it with the hard-coded default
`{C:3, RW:3, LW:3, D:4, G:3}`; the default is a fixed constant of the
public operation, not a configurable input. -/
theorem C8_amended_hardcoded (teamPlayers : List Player) :
    optimizeRoster teamPlayers =
      backtrackOptimize (sortByFpts teamPlayers) defaultReq ∧
    defaultReq = [("C", 3), ("RW", 3), ("LW", 3), ("D", 4), ("G", 3)] :=
  ⟨rfl, rfl⟩

/-- **C7** counterexample — the greedy first pass breaks capacity ties
by the *iteration order* of the candidate's eligible-category set, not
by label order: with the set iterated as `["D", "C"]` and both
categories at remaining capacity 1, the code assigns `D`, although the
label order (as computed by `sortedCats`) lists `C` first. -/
theorem C7_counterexample :
    (optimizedGreedy [⟨"7", ["D", "C"], 5⟩] [("C", 1), ("D", 1)]).1.map Prod.snd
      = ["D"] ∧
    sortedCats (Player.positions ⟨"7", ["D", "C"], 5⟩) = ["C", "D"] ∧
    getD [("C", 1), ("D", 1)] "C" = getD [("C", 1), ("D", 1)] "D" := by
  refine ⟨?_, ?_, ?_⟩
  · with_unfolding_all rfl
  · with_unfolding_all rfl
  · rfl

/-- **C7 (amended)** — in the greedy first pass the category chosen for
a candidate is an eligible category with positive remaining capacity of
minimal remaining capacity, and among the minimizers it is the one
*encountered first in the set's iteration order* (not necessarily the
alphabetically first); the first pass then assigns the candidate to
exactly that category. -/
theorem C7_amended_first_min (rem : Req) (ps : List String) (c : String) (v : ℕ)
    (h : pickPos rem ps = some (c, v)) :
    v = getD rem c ∧ 0 < v ∧
    (∀ c' ∈ ps, 0 < getD rem c' → v ≤ getD rem c') ∧
    (∃ ps1 ps2, ps = ps1 ++ c :: ps2 ∧
      ∀ c' ∈ ps1, 0 < getD rem c' → v < getD rem c') ∧
    (∀ (p : Player) (rest : List Player) (s : GState),
      s.rem = rem → p.positions = ps → p.id ∉ s.used → c ≠ "" →
      greedyPass1 (p :: rest) s =
        greedyPass1 rest ⟨s.sel ++ [(p, c)], s.used ++ [p.id], decr s.rem c⟩) := by
  have hmin := pickLoop_min ps none (c, v) h
  rcases pickLoop_split ps none (c, v) h with he | ⟨ps1, ps2, heq, hv, hvpos, _, hps1⟩
  · cases he
  · refine ⟨hv, hvpos, hmin.1, ⟨ps1, ps2, heq, hps1⟩, ?_⟩
    intro p rest s hrem hps hu hc
    have hpick : pickPos s.rem p.positions = some (c, v) := by
      rw [hrem, hps]
      exact h
    rw [greedyPass1, if_neg hu, hpick]
    dsimp only
    rw [if_neg hc]

theorem posSum_perm {l l' : List Player} (h : l.Perm l') : posSum l = posSum l' :=
  (h.map _).sum_eq

/-- **C6** — Greedy dominance: for a value-sorted candidate list with
non-negative values and any requirement, the exact solver's total value
is at least the greedy solver's total value.  When the search records
nothing, the exact solver *returns* the greedy result; otherwise the
recorded complete assignment is used, via the exchange argument, to
extend the greedy selection to a feasible complete assignment of no
smaller value, which the search dominates. -/
theorem C6_greedy_dominance (players : List Player) (req : Req)
    (hsort : SortedDesc players) (hval : ∀ p ∈ players, 0 ≤ p.fpts)
    (hnd : (req.map Prod.fst).Nodup) :
    (optimizedGreedy players req).2 ≤ (backtrackOptimize players req).2 := by
  by_cases hnil : (btSearch players req).1 = []
  · rw [backtrackOptimize, if_pos hnil]
  · rcases btSearch_cases players req with h | hgb
    · exact absurd h hnil
    obtain ⟨hsubp0, helig0, hcnt0, _⟩ := hgb
    obtain ⟨s2, heq, hinv⟩ := optimizedGreedy_inv players req
    obtain ⟨hmemG, heligG, hidnd, _, hcntG⟩ := hinv
    have hgval : (optimizedGreedy players req).2 = totalFpts s2.sel := by
      rw [heq]
    have hGfst_nd : (s2.sel.map Prod.fst).Nodup := by
      apply List.Nodup.of_map Player.id
      have h1 : (s2.sel.map Prod.fst).map Player.id =
          s2.sel.map (fun pc => pc.1.id) := by
        rw [List.map_map]
        rfl
      rw [h1]
      exact hidnd
    have hGsub : List.Subperm (s2.sel.map Prod.fst) players := by
      apply List.Nodup.subperm hGfst_nd
      intro p hp
      rcases List.mem_map.mp hp with ⟨pc, hpc, hfst⟩
      exact hfst ▸ hmemG pc hpc
    have hcntGle : ∀ c, catCount s2.sel c ≤ getD req c := by
      intro c
      have h1 := hcntG c
      omega
    have henum_nd : ((players.enum).map Prod.fst).Nodup := by
      rw [List.enum_map_fst]
      exact List.nodup_range _
    have henum_snd : (players.enum).map Prod.snd = players := List.enum_map_snd players
    obtain ⟨Gt, hGtnd, hGtmem, hGtperm⟩ := tag_exists s2.sel players.enum henum_nd
      (by rw [henum_snd]; exact hGsub)
    obtain ⟨Bt, hBtnd, hBtmem, hBtperm⟩ := tag_exists (btSearch players req).1
      players.enum henum_nd (by rw [henum_snd]; exact hsubp0)
    have hBtnd2 : (Bt.map Prod.fst).Nodup := List.Nodup.of_map Prod.fst hBtnd
    have heB : ∀ q ∈ Bt, q.2 ∈ q.1.2.positions := by
      intro q hq
      have h1 : (q.1.2, q.2) ∈ untag Bt := List.mem_map_of_mem _ hq
      exact helig0 _ (hBtperm.subset h1)
    have hcB : ∀ c, catCount Bt c ≤ getD req c := by
      intro c
      rw [← catCount_untag, catCount_perm hBtperm c, hcnt0 c]
    have hGtnd2 : (Gt.map Prod.fst).Nodup := List.Nodup.of_map Prod.fst hGtnd
    have heA : ∀ q ∈ Gt, q.2 ∈ q.1.2.positions := by
      intro q hq
      have h1 : (q.1.2, q.2) ∈ untag Gt := List.mem_map_of_mem _ hq
      exact heligG _ (hGtperm.subset h1)
    have hcA : ∀ c, catCount Gt c ≤ getD req c := by
      intro c
      rw [← catCount_untag, catCount_perm hGtperm c]
      exact hcntGle c
    have hBtlen : Bt.length = sumVals req := by
      have h1 : (untag Bt).length = Bt.length := by
        rw [untag]
        exact List.length_map _ _
      have h2 : (untag Bt).length = (btSearch players req).1.length :=
        hBtperm.length_eq
      have h3 : (btSearch players req).1.length = sumVals req :=
        length_of_complete hnd hcnt0
      omega
    have hGtlen : Gt.length = s2.sel.length := by
      have h1 : (untag Gt).length = Gt.length := by
        rw [untag]
        exact List.length_map _ _
      have h2 := hGtperm.length_eq
      omega
    have hGle : s2.sel.length ≤ sumVals req := length_le_sumVals hnd hcntGle
    have hABlen : Gt.length ≤ Bt.length := by omega
    obtain ⟨A', ts, hA'len, hA'perm, htsB, hA'nd, hA'elig, hA'cnt⟩ :=
      tok_extend req Bt hBtnd2 heB hcB (Bt.length - Gt.length) Gt rfl
        hGtnd2 heA hcA hABlen
    have hA'lens : A'.length = sumVals req := by omega
    have hA'cnt_eq : ∀ c, catCount A' c = getD req c :=
      counts_eq_of_length hnd hA'cnt hA'lens
    have hA'toks : ∀ u ∈ A'.map Prod.fst, u ∈ players.enum := by
      intro u hu
      have h1 : u ∈ ts ++ Gt.map Prod.fst := hA'perm.subset hu
      rcases List.mem_append.mp h1 with h2 | h2
      · have h3 := htsB u h2
        rcases List.mem_map.mp h3 with ⟨q, hq, hq1⟩
        exact hq1 ▸ hBtmem q hq
      · rcases List.mem_map.mp h2 with ⟨q, hq, hq1⟩
        exact hq1 ▸ hGtmem q hq
    have huntag_fst : (untag A').map Prod.fst = (A'.map Prod.fst).map Prod.snd := by
      rw [untag, List.map_map, List.map_map]
      rfl
    have hK'sub : List.Subperm ((untag A').map Prod.fst) players := by
      have h1 : List.Subperm (A'.map Prod.fst) players.enum :=
        List.Nodup.subperm hA'nd hA'toks
      obtain ⟨l, hp, hs⟩ := h1
      have h2 : List.Subperm ((A'.map Prod.fst).map Prod.snd)
          ((players.enum).map Prod.snd) :=
        ⟨l.map Prod.snd, hp.map _, hs.map _⟩
      rw [henum_snd] at h2
      rw [huntag_fst]
      exact h2
    have hK'feas : FeasibleComplete players req (untag A') := by
      refine ⟨hK'sub, untag_elig hA'elig, ?_⟩
      rw [completeAsg_iff hnd]
      intro c
      rw [catCount_untag]
      exact hA'cnt_eq c
    have htsnn : 0 ≤ posSum (ts.map Prod.snd) := by
      apply posSum_nonneg
      intro p hp
      rcases List.mem_map.mp hp with ⟨u, hu, hu2⟩
      have h3 := htsB u hu
      rcases List.mem_map.mp h3 with ⟨q, hq, hq1⟩
      have h4 : u ∈ players.enum := hq1 ▸ hBtmem q hq
      have h5 : u.2 ∈ players := by
        rw [← henum_snd]
        exact List.mem_map_of_mem Prod.snd h4
      exact hu2 ▸ hval u.2 h5
    have hvalK' : totalFpts s2.sel ≤ totalFpts (untag A') := by
      rw [totalFpts_untag]
      have h1 : posSum ((A'.map Prod.fst).map Prod.snd) =
          posSum ((ts ++ Gt.map Prod.fst).map Prod.snd) :=
        posSum_perm (hA'perm.map Prod.snd)
      rw [h1, List.map_append, posSum_append]
      have h2 : totalFpts s2.sel = posSum ((Gt.map Prod.fst).map Prod.snd) := by
        rw [← totalFpts_untag]
        exact (totalFpts_perm hGtperm).symm
      rw [h2]
      linarith
    have hexact := exact_ge_feasible hsort hval hnd hK'feas
    rw [hgval]
    linarith

/-! ## Witnesses -/

theorem C1_amended_witness :
    SortedDesc [(⟨"1", ["C"], 5⟩ : Player)] ∧
    FeasibleComplete [⟨"1", ["C"], 5⟩] [("C", 1)] [(⟨"1", ["C"], 5⟩, "C")] ∧
    totalFpts [((⟨"1", ["C"], 5⟩ : Player), "C")] ≤
      (backtrackOptimize [⟨"1", ["C"], 5⟩] [("C", 1)]).2 :=
  ⟨by decide, by decide,
    C1_amended_optimality [⟨"1", ["C"], 5⟩] [("C", 1)] [(⟨"1", ["C"], 5⟩, "C")]
      (by decide) (by decide) (by decide) (by decide)⟩

theorem C3_witness :
    SortedDesc [(⟨"1", ["C"], 5⟩ : Player)] ∧
    ((0 : ℚ) + totalFpts [((⟨"1", ["C"], 5⟩ : Player), "C")] ≤
        0 + posSum (([(⟨"1", ["C"], 5⟩ : Player)].drop 0).take (1 - 0)) ∧
      ((0 : ℚ) + posSum (([(⟨"1", ["C"], 5⟩ : Player)].drop 0).take (1 - 0)) ≤ 7 →
        (0 : ℚ) + totalFpts [((⟨"1", ["C"], 5⟩ : Player), "C")] ≤ 7)) := by
  refine ⟨by decide, ?_⟩
  apply C3_bound_admissible [⟨"1", ["C"], 5⟩] 0 [("C", 1)] 0 1 0 7
    [(⟨"1", ["C"], 5⟩, "C")] (by decide) (by decide) (by decide) (by decide)
    (by exact List.Sublist.refl _) (by decide)
  intro c
  by_cases hc : "C" = c
  · subst hc
    rfl
  · rw [catCount_cons, catCount_nil, if_neg hc]
    simp [getD, hc]

theorem C5_witness :
    (([(⟨"1", ["C"], 5⟩ : Player)]).map Player.id).Nodup ∧
    (((backtrackOptimize [⟨"1", ["C"], 5⟩] [("C", 1)]).1.map
        (fun pc => pc.1.id)).Nodup ∧
      ((optimizedGreedy [⟨"1", ["C"], 5⟩] [("C", 1)]).1.map
        (fun pc => pc.1.id)).Nodup) :=
  ⟨by decide, C5_uniqueness [⟨"1", ["C"], 5⟩] [("C", 1)] (by decide)⟩

theorem C6_witness :
    SortedDesc [(⟨"1", ["C"], 5⟩ : Player)] ∧
    (optimizedGreedy [⟨"1", ["C"], 5⟩] [("C", 1)]).2 ≤
      (backtrackOptimize [⟨"1", ["C"], 5⟩] [("C", 1)]).2 :=
  ⟨by decide,
    C6_greedy_dominance [⟨"1", ["C"], 5⟩] [("C", 1)] (by decide) (by decide) (by decide)⟩

theorem C7_amended_witness :
    pickPos [("C", 1), ("D", 1)] ["D", "C"] = some ("D", 1) ∧
    (1 = getD [("C", 1), ("D", 1)] "D" ∧ 0 < 1 ∧
      (∀ c' ∈ ["D", "C"], 0 < getD [("C", 1), ("D", 1)] c' →
        1 ≤ getD [("C", 1), ("D", 1)] c') ∧
      (∃ ps1 ps2, ["D", "C"] = ps1 ++ "D" :: ps2 ∧
        ∀ c' ∈ ps1, 0 < getD [("C", 1), ("D", 1)] c' →
          1 < getD [("C", 1), ("D", 1)] c') ∧
      (∀ (p : Player) (rest : List Player) (s : GState),
        s.rem = [("C", 1), ("D", 1)] → p.positions = ["D", "C"] →
        p.id ∉ s.used → "D" ≠ "" →
        greedyPass1 (p :: rest) s =
          greedyPass1 rest ⟨s.sel ++ [(p, "D")], s.used ++ [p.id],
            decr s.rem "D"⟩)) :=
  ⟨rfl, C7_amended_first_min [("C", 1), ("D", 1)] ["D", "C"] "D" 1 rfl⟩

theorem C9_witness :
    ("C", 1) ∈ ([("C", 1)] : Req) ∧ 0 < 1 ∧
    (backtrackOptimize [] [("C", 1)] = ([], 0) ∧ ¬ CompleteAsg [("C", 1)] []) :=
  ⟨by decide, by decide,
    C9_empty_candidates [("C", 1)] ("C", 1) (by decide) (by decide)⟩

theorem C10_witness :
    0 < sumVals [("C", 1)] ∧
    (((btSearch [(⟨"1", ["C"], 5⟩ : Player)] [("C", 1)]).1 = [] ↔
        ¬ ∃ E, FeasibleComplete [⟨"1", ["C"], 5⟩] [("C", 1)] E) ∧
      ((btSearch [(⟨"1", ["C"], 5⟩ : Player)] [("C", 1)]).1 = [] →
        backtrackOptimize [⟨"1", ["C"], 5⟩] [("C", 1)] =
          optimizedGreedy [⟨"1", ["C"], 5⟩] [("C", 1)]) ∧
      (∀ E, FeasibleComplete [⟨"1", ["C"], 5⟩] [("C", 1)] E →
        (btSearch [(⟨"1", ["C"], 5⟩ : Player)] [("C", 1)]).1 ≠ [] ∧
        CompleteAsg [("C", 1)]
          (backtrackOptimize [⟨"1", ["C"], 5⟩] [("C", 1)]).1)) :=
  ⟨by decide,
    C10_fallback_iff [⟨"1", ["C"], 5⟩] [("C", 1)] (by decide) (by decide) (by decide)⟩

end Roster
